import Mathlib

/-!
A verification development for the core of the `rattler` conda-compatible
package manager: the MatchSpec query algebra, the per-package variant-subset
bitset algebra used by the PubGrub-style solver driver, the solver's
choose-package / get-dependencies bridge, package-cache validation, and the
installer's file linking with prefix-placeholder rewriting.

Pure functions of the Rust source are embedded as Lean functions; the
filesystem-facing operations are embedded as explicit state passing over a
model filesystem.  Machine integers are modelled as `Nat` (no arithmetic in
the embedded code overflows: all quantities are lengths and counts), byte
strings as `List Nat`.
-/

namespace Rattler

/-- Modelled from the spec: `Version` (defined in `version.rs`, which is not
part of the sources at hand) is "an opaque ordered value ... Comparison is the
sole behavioral requirement for the solver", so it is modelled as a natural
number with its usual total order. -/
abbrev Version := Nat

/-- Modelled from the spec: `VersionSpec` (defined in `version_spec.rs`, not
part of the sources at hand) is a version range; the spec requires only a
total `matches : Version → Bool`.  Modelled as an interval with optional
inclusive bounds. -/
structure VersionSpec where
  lowerBound : Option Version
  upperBound : Option Version
deriving DecidableEq, Repr

/-- Whether a version lies in the range. -/
def VersionSpec.matches (s : VersionSpec) (v : Version) : Bool :=
  (match s.lowerBound with
   | none => true
   | some lo => decide (lo ≤ v)) &&
  (match s.upperBound with
   | none => true
   | some hi => decide (v ≤ hi))

/-- Modelled from the spec: the build-string glob of a `MatchSpec` comes from
the external `glob` crate (`glob::Pattern`); the spec requires only
"build-string matches glob".  Modelled as a pattern string in which `*`
matches any (possibly empty) substring and any other character matches
itself. -/
def globMatchChars : List Char → List Char → Bool
  | [], [] => true
  | [], _ :: _ => false
  | p :: ps, s =>
    if p = '*' then
      globMatchChars ps s ||
        (match s with
         | [] => false
         | _ :: rest => globMatchChars (p :: ps) rest)
    else
      match s with
      | [] => false
      | c :: rest => p = c && globMatchChars ps rest
termination_by p s => p.length + s.length

/-- Glob match on strings (see `globMatchChars`). -/
def globMatches (pattern str : String) : Bool :=
  globMatchChars pattern.toList str.toList

/-- The `MatchSpec` struct from `match_spec/mod.rs`: a conjunctive query with
optional fields.  `channel` and `namespace` are opaque to every embedded
operation and are modelled as optional strings. -/
structure MatchSpec where
  name : Option String
  version : Option VersionSpec
  build : Option String
  buildNumber : Option Nat
  filename : Option String
  channel : Option String
  namespaceField : Option String
deriving DecidableEq, Repr

/-- Modelled from the spec: `PackageRecord` (defined in `repo_data/mod.rs`,
not part of the sources at hand) holds "name, version, build string, build
number, ... optional timestamp, dependencies (list of spec strings),
constrains (list of spec strings), tracked features (set of strings)".
The dependency and constrains spec strings are modelled as already-parsed
`MatchSpec`s (the spec-string parser of `match_spec/parse.rs` is likewise not
part of the sources at hand). -/
structure PackageRecord where
  name : String
  version : Version
  build : String
  buildNumber : Nat
  trackFeatures : List String
  timestamp : Option Nat
  depends : List MatchSpec
  constrains : List MatchSpec
deriving DecidableEq, Repr

instance : Inhabited PackageRecord :=
  ⟨{ name := "", version := 0, build := "", buildNumber := 0,
     trackFeatures := [], timestamp := none, depends := [], constrains := [] }⟩

/-- The `MatchSpec::matches` method from `match_spec/mod.rs`: checks the
`name`, `version` and `build` fields in turn, returning `false` on the first
mismatch and `true` otherwise.  (The remaining fields of the struct are not
consulted by the source.) -/
def MatchSpec.matches (self : MatchSpec) (record : PackageRecord) : Bool :=
  if let some name := self.name then
    if name ≠ record.name then false
    else matchesVersion self record
  else matchesVersion self record
where
  matchesVersion (self : MatchSpec) (record : PackageRecord) : Bool :=
    if let some spec := self.version then
      if ¬ spec.matches record.version then false
      else matchesBuild self record
    else matchesBuild self record
  matchesBuild (self : MatchSpec) (record : PackageRecord) : Bool :=
    if let some buildString := self.build then
      if ¬ globMatches buildString record.build then false
      else true
    else true

/-- A `MatchSpec` with only a name, used in concrete checks below. -/
def msOnlyName (n : String) : MatchSpec :=
  { name := some n, version := none, build := none, buildNumber := none,
    filename := none, channel := none, namespaceField := none }

/-! ## The per-package variant set and its subset algebra (`solver/resolver.rs`)

A `PackageVariants` holds all variants of one package together with the
originating source index of each record.  The `solver_order` and
`dependencies` once-cells of the source are laziness artifacts: the order is
recomputed by `variantsOrder` below and the parsed dependency lists live on
the records.  The `Rc<PackageVariants>` pointer stored inside bitsets and ids
only provides identity (debug-asserted), so `Discrete` carries the bitset
alone; bitsets (`bit_vec::BitVec`) are modelled as `List Bool`. -/

structure PackageVariants where
  name : String
  variants : List (Nat × PackageRecord)
deriving DecidableEq, Repr

/-- `BitVec::none`: no bit is set.  (True on the empty bitset.) -/
def bvNone (b : List Bool) : Bool := !(b.any id)

/-- `BitVec::all`: every bit is set.  (True on the empty bitset.) -/
def bvAll (b : List Bool) : Bool := b.all id

/-- The solver's version-set type `PackageVariantsSubset` from
`solver/resolver.rs`: `Empty`, `Full`, or a discrete bitset. -/
inductive PackageVariantsSubset where
  | Empty
  | Full
  | Discrete (included : List Bool)
deriving DecidableEq, Repr

namespace PackageVariantsSubset

/-- The canonicality invariant claimed by the spec: a `Discrete` bitset is
neither all-zeros nor all-ones. -/
def isCanonical : PackageVariantsSubset → Bool
  | .Empty => true
  | .Full => true
  | .Discrete b => !(bvNone b) && !(bvAll b)

/-- `PackageVariantsSubset::contains_index`.  The source `expect`s on an
out-of-range index (a panic); the model returns `false` there, and every
theorem below only samples in-range indices. -/
def containsIndex : PackageVariantsSubset → Nat → Bool
  | .Empty, _ => false
  | .Full, _ => true
  | .Discrete b, i => b.getD i false

/-- `VersionSet::singleton` via `PackageVariantBitset::singleton`: a
fresh all-false bitset of the set's length with the variant's bit set.  The
source wraps the bitset in `Discrete` without canonicalizing. -/
def singleton (len idx : Nat) : PackageVariantsSubset :=
  .Discrete ((List.replicate len false).set idx true)

/-- `VersionSet::complement`: swaps `Empty`/`Full` and bitwise-negates a
`Discrete` bitset (`BitVec::negate`), again without canonicalizing. -/
def complement : PackageVariantsSubset → PackageVariantsSubset
  | .Empty => .Full
  | .Full => .Empty
  | .Discrete b => .Discrete (b.map not)

/-- `VersionSet::intersection`: `Empty` absorbs, `Full` is neutral, and on two
`Discrete` bitsets (same variant set, debug-asserted in the source) the
bitwise AND is canonicalized to `Empty` when no bit remains set. -/
def intersection : PackageVariantsSubset → PackageVariantsSubset → PackageVariantsSubset
  | .Empty, _ => .Empty
  | _, .Empty => .Empty
  | .Full, other => other
  | other, .Full => other
  | .Discrete a, .Discrete b =>
    let included := List.zipWith and a b
    if bvNone included then .Empty else .Discrete included

/-- `VersionSet::union`: dual of `intersection`; the bitwise OR is
canonicalized to `Full` when every bit is set. -/
def union : PackageVariantsSubset → PackageVariantsSubset → PackageVariantsSubset
  | .Empty, other => other
  | other, .Empty => other
  | .Full, _ => .Full
  | _, .Full => .Full
  | .Discrete a, .Discrete b =>
    let included := List.zipWith or a b
    if bvAll included then .Full else .Discrete included

end PackageVariantsSubset

/-- `PackageVariants::subset_from_matchspec`: set one bit per variant the spec
matches, then canonicalize all-zeros to `Empty` and all-ones to `Full`. -/
def PackageVariants.subsetFromMatchspec (self : PackageVariants)
    (matchSpec : MatchSpec) : PackageVariantsSubset :=
  let included := self.variants.map (fun v => matchSpec.matches v.2)
  if bvNone included then .Empty
  else if bvAll included then .Full
  else .Discrete included

/-- `PackageVariants::subset_size`: `Empty` has size 0, `Full` the variant
count, and a `Discrete` bitset its population count. -/
def PackageVariants.subsetSize (self : PackageVariants) :
    PackageVariantsSubset → Nat
  | .Empty => 0
  | .Full => self.variants.length
  | .Discrete b => b.count true

/-! ### Bitset lemmas -/

theorem bvAnyNot (b : List Bool) : (b.map not).any id = !(b.all id) := by
  induction b with
  | nil => rfl
  | cons x xs ih => cases x <;> simp [List.any_cons, List.all_cons, ih]

theorem bvAllNot (b : List Bool) : (b.map not).all id = !(b.any id) := by
  induction b with
  | nil => rfl
  | cons x xs ih => cases x <;> simp [List.any_cons, List.all_cons, ih]

theorem bvAllAnd (a b : List Bool) (h : a.length = b.length)
    (ha : (List.zipWith and a b).all id = true) : a.all id = true := by
  induction a generalizing b with
  | nil => rfl
  | cons x xs ih =>
    cases b with
    | nil => simp at h
    | cons y ys =>
      simp only [List.zipWith_cons_cons, List.all_cons, Bool.and_eq_true] at ha ⊢
      exact ⟨(Bool.and_eq_true x y).mp ha.1 |>.1,
        ih ys (by simpa using h) ha.2⟩

theorem bvAnyOr (a b : List Bool) (h : a.length = b.length)
    (ha : a.any id = true) : (List.zipWith or a b).any id = true := by
  induction a generalizing b with
  | nil => simp at ha
  | cons x xs ih =>
    cases b with
    | nil => simp at h
    | cons y ys =>
      simp only [List.zipWith_cons_cons, List.any_cons, Bool.or_eq_true, id] at ha ⊢
      rcases ha with hx | hxs
      · exact Or.inl (Or.inl hx)
      · exact Or.inr (ih ys (by simpa using h) hxs)

theorem singletonAny (len idx : Nat) (h : idx < len) :
    ((List.replicate len false).set idx true).any id = true := by
  induction len generalizing idx with
  | zero => omega
  | succ n ih =>
    cases idx with
    | zero => simp [List.replicate_succ]
    | succ i =>
      simp only [List.replicate_succ, List.set_cons_succ, List.any_cons]
      exact Bool.or_eq_true _ _ |>.mpr (Or.inr (ih i (by omega)))

theorem singletonAll (len idx : Nat) (h : idx < len) :
    (((List.replicate len false).set idx true).all id = true) ↔ len = 1 := by
  induction len generalizing idx with
  | zero => omega
  | succ n ih =>
    cases idx with
    | zero =>
      simp only [List.replicate_succ, List.set_cons_zero, List.all_cons, Bool.and_eq_true]
      constructor
      · rintro ⟨-, hall⟩
        cases n with
        | zero => rfl
        | succ m => simp [List.replicate_succ] at hall
      · intro hone
        have hn : n = 0 := by omega
        subst hn
        exact ⟨rfl, rfl⟩
    | succ i =>
      simp only [List.replicate_succ, List.set_cons_succ, List.all_cons, Bool.and_eq_true]
      constructor
      · rintro ⟨hfalse, -⟩
        cases hfalse
      · intro hlen
        omega

/-! ## Claims about `MatchSpec::matches` and the subset algebra -/

/-- The matching predicate as the spec's words state it: every present field
must be satisfied — name equality, version in range, build-string glob match,
and build-number equality.  Stated for comparison with the source's
`MatchSpec.matches`, which is translated from `match_spec/mod.rs`. -/
def specClaimedMatches (m : MatchSpec) (r : PackageRecord) : Bool :=
  (match m.name with | none => true | some n => n == r.name) &&
  (match m.version with | none => true | some vs => vs.matches r.version) &&
  (match m.build with | none => true | some p => globMatches p r.build) &&
  (match m.buildNumber with | none => true | some bn => bn == r.buildNumber)

/-- A spec carrying only a name and a build-number constraint. -/
def c1Spec : MatchSpec :=
  { name := some "foo", version := none, build := none, buildNumber := some 0,
    filename := none, channel := none, namespaceField := none }

/-- A record whose build number differs from `c1Spec`'s. -/
def c1Record : PackageRecord :=
  { name := "foo", version := 1, build := "h1", buildNumber := 1,
    trackFeatures := [], timestamp := none, depends := [], constrains := [] }

/-- C1: the claim is false on the code.  `c1Spec` has `build_number = Some 0`
and `c1Record` has build number 1, yet `MatchSpec::matches` returns `true`:
the source never consults the `build_number` field. -/
theorem claim1_counterexample :
    c1Spec.buildNumber = some 0 ∧ c1Record.buildNumber = 1 ∧
    c1Spec.matches c1Record = true ∧ specClaimedMatches c1Spec c1Record = false :=
  ⟨rfl, rfl, by decide, by decide⟩

/-- C1 (amended): `MatchSpec::matches(m, r)` returns true iff every field of
`m` among name, version and build-string is present and satisfied by `r`;
the `build_number` (as well as `filename`, `channel` and `namespace`) field is
never consulted. -/
theorem claim1_theorem (m : MatchSpec) (r : PackageRecord) :
    m.matches r =
      ((match m.name with | none => true | some n => n == r.name) &&
       (match m.version with | none => true | some vs => vs.matches r.version) &&
       (match m.build with | none => true | some p => globMatches p r.build)) := by
  have hbuild : MatchSpec.matches.matchesBuild m r =
      (match m.build with | none => true | some p => globMatches p r.build) := by
    unfold MatchSpec.matches.matchesBuild
    cases m.build with
    | none => rfl
    | some p => by_cases h : globMatches p r.build = true <;> simp [h]
  have hversion : MatchSpec.matches.matchesVersion m r =
      ((match m.version with | none => true | some vs => vs.matches r.version) &&
       (match m.build with | none => true | some p => globMatches p r.build)) := by
    unfold MatchSpec.matches.matchesVersion
    cases m.version with
    | none => simpa using hbuild
    | some vs => by_cases h : vs.matches r.version = true <;> simp [h, hbuild]
  unfold MatchSpec.matches
  cases m.name with
  | none => simpa using hversion
  | some n => by_cases h : n = r.name <;> simp [h, hversion]

/-- Unfolding lemma for `subsetFromMatchspec` with the bitset named. -/
theorem subsetFromMatchspecDef (pv : PackageVariants) (m : MatchSpec) :
    pv.subsetFromMatchspec m =
      (if bvNone (pv.variants.map (fun v => m.matches v.2)) then .Empty
       else if bvAll (pv.variants.map (fun v => m.matches v.2)) then .Full
       else .Discrete (pv.variants.map (fun v => m.matches v.2))) := rfl

/-- Length compatibility of two subsets: two `Discrete` bitsets must have the
same length (in the source both point at the same `Rc<PackageVariants>`,
which is debug-asserted). -/
def sameLengthB : PackageVariantsSubset → PackageVariantsSubset → Bool
  | .Discrete a, .Discrete b => a.length == b.length
  | _, _ => true

/-- C2: the claim is false on the code.  `VersionSet::singleton` wraps the
one-bit bitset in `Discrete` without canonicalizing, so over a one-variant set
it yields an all-ones `Discrete` bitset rather than `Full`. -/
theorem claim2_counterexample :
    PackageVariantsSubset.singleton 1 0 = PackageVariantsSubset.Discrete [true] ∧
    (PackageVariantsSubset.Discrete [true]).isCanonical = false :=
  ⟨rfl, rfl⟩

/-- C2 (amended): `empty`, `full` and `subset_from_matchspec` always produce
canonical subsets, and `complement`, `intersection` and `union` preserve
canonicality (given, for the binary operations, bitsets of equal length);
but `singleton` does not canonicalize: over a set with `len` variants it is
canonical exactly when `2 ≤ len`, so a one-variant set yields a non-canonical
all-ones `Discrete`. -/
theorem claim2_theorem :
    (∀ (pv : PackageVariants) (m : MatchSpec),
        (pv.subsetFromMatchspec m).isCanonical = true) ∧
    (∀ s : PackageVariantsSubset,
        s.isCanonical = true → s.complement.isCanonical = true) ∧
    (∀ s t : PackageVariantsSubset, sameLengthB s t = true →
        s.isCanonical = true → t.isCanonical = true →
        (s.intersection t).isCanonical = true) ∧
    (∀ s t : PackageVariantsSubset, sameLengthB s t = true →
        s.isCanonical = true → t.isCanonical = true →
        (s.union t).isCanonical = true) ∧
    (∀ len idx : Nat, idx < len →
        ((PackageVariantsSubset.singleton len idx).isCanonical = true ↔ 2 ≤ len)) := by
  refine ⟨?_, ?_, ?_, ?_, ?_⟩
  · intro pv m
    rw [subsetFromMatchspecDef]
    split
    · rfl
    · split
      · rfl
      · rename_i h1 h2
        have h1f : bvNone (pv.variants.map (fun v => m.matches v.2)) = false := by
          simpa using h1
        have h2f : bvAll (pv.variants.map (fun v => m.matches v.2)) = false := by
          simpa using h2
        simp [PackageVariantsSubset.isCanonical, h1f, h2f]
  · intro s hs
    cases s with
    | Empty => rfl
    | Full => rfl
    | Discrete b =>
      simp only [PackageVariantsSubset.isCanonical, PackageVariantsSubset.complement,
        bvNone, bvAll, Bool.not_not, Bool.and_eq_true, Bool.not_eq_true] at hs ⊢
      rw [bvAnyNot, bvAllNot]
      simp only [Bool.not_not]
      exact ⟨by simp [hs.2], by simp [hs.1]⟩
  · intro s t hlen hs ht
    cases s with
    | Empty => cases t <;> rfl
    | Full => cases t <;> first | rfl | exact ht
    | Discrete a =>
      cases t with
      | Empty => rfl
      | Full => exact hs
      | Discrete b =>
        simp only [sameLengthB, beq_iff_eq] at hlen
        simp only [PackageVariantsSubset.intersection]
        split
        · rfl
        · rename_i hnone
          have h1 : bvNone (List.zipWith and a b) = false := by simpa using hnone
          have h2 : bvAll (List.zipWith and a b) = false := by
            cases hb : bvAll (List.zipWith and a b) with
            | false => rfl
            | true =>
              have haall : a.all id = true :=
                bvAllAnd a b hlen (by simpa [bvAll] using hb)
              simp [PackageVariantsSubset.isCanonical, bvAll, haall] at hs
          simp [PackageVariantsSubset.isCanonical, h1, h2]
  · intro s t hlen hs ht
    cases s with
    | Empty => cases t <;> first | rfl | exact ht
    | Full => cases t <;> rfl
    | Discrete a =>
      cases t with
      | Empty => exact hs
      | Full => rfl
      | Discrete b =>
        simp only [sameLengthB, beq_iff_eq] at hlen
        simp only [PackageVariantsSubset.union]
        split
        · rfl
        · rename_i hall
          have h2 : bvAll (List.zipWith or a b) = false := by simpa using hall
          have hany : a.any id = true := by
            cases ha : a.any id with
            | true => rfl
            | false => simp [PackageVariantsSubset.isCanonical, bvNone, ha] at hs
          have h1 : bvNone (List.zipWith or a b) = false := by
            simp [bvNone, bvAnyOr a b hlen hany]
          simp [PackageVariantsSubset.isCanonical, h1, h2]
  · intro len idx h
    have hany := singletonAny len idx h
    constructor
    · intro hcanon
      have hallf : ((List.replicate len false).set idx true).all id = false := by
        cases hb : ((List.replicate len false).set idx true).all id with
        | false => rfl
        | true =>
          simp [PackageVariantsSubset.singleton, PackageVariantsSubset.isCanonical,
            bvAll, hb] at hcanon
      have hne : len ≠ 1 := fun hone => by
        rw [(singletonAll len idx h).mpr hone] at hallf
        cases hallf
      omega
    · intro h2
      have hallf : ((List.replicate len false).set idx true).all id = false := by
        cases hb : ((List.replicate len false).set idx true).all id with
        | false => rfl
        | true =>
          have := (singletonAll len idx h).mp hb
          omega
      simp [PackageVariantsSubset.singleton, PackageVariantsSubset.isCanonical,
        bvNone, bvAll, hany, hallf]

/-- C2 witness: the amended theorem applied at a two-variant singleton. -/
theorem claim2_theorem_witness :
    (PackageVariantsSubset.singleton 2 0).isCanonical = true :=
  (claim2_theorem.2.2.2.2 2 0 (by decide)).mpr (by decide)

/-- A record used to instantiate the subset-membership claim. -/
def c9Record : PackageRecord :=
  { name := "bar", version := 2, build := "h2", buildNumber := 0,
    trackFeatures := [], timestamp := none, depends := [], constrains := [] }

/-- C9: for every `MatchSpec` `m` and `PackageVariants` set holding record `r`
at index `i`, the subset built by `subset_from_matchspec` contains index `i`
iff `m.matches r` — the canonicalization to `Empty`/`Full` does not change
membership. -/
theorem claim9_theorem (pv : PackageVariants) (m : MatchSpec) (i : Nat)
    (h : i < pv.variants.length) :
    (pv.subsetFromMatchspec m).containsIndex i = m.matches pv.variants[i].2 := by
  rw [subsetFromMatchspecDef]
  have hlen : (pv.variants.map (fun v => m.matches v.2)).length = pv.variants.length :=
    List.length_map _ _
  have hi : i < (pv.variants.map (fun v => m.matches v.2)).length := by omega
  have hget : (pv.variants.map (fun v => m.matches v.2))[i] = m.matches pv.variants[i].2 :=
    List.getElem_map _
  split
  · rename_i hnone
    simp only [PackageVariantsSubset.containsIndex]
    have hanyf : (pv.variants.map (fun v => m.matches v.2)).any id = false := by
      simpa [bvNone] using hnone
    have hfalse : (pv.variants.map (fun v => m.matches v.2))[i] = false := by
      simpa using List.any_eq_false.mp hanyf _ (List.getElem_mem hi)
    rw [← hget, hfalse]
  · split
    · rename_i hall
      simp only [PackageVariantsSubset.containsIndex]
      have := List.all_eq_true.mp hall _ (List.getElem_mem hi)
      simp only [id] at this
      rw [← hget, this]
    · simp only [PackageVariantsSubset.containsIndex]
      rw [List.getD_eq_getElem _ _ hi, hget]

/-- C9 witness: the theorem applied to a one-record set and a name-only spec. -/
theorem claim9_theorem_witness :
    ((⟨"bar", [(1, c9Record)]⟩ : PackageVariants).subsetFromMatchspec
        (msOnlyName "bar")).containsIndex 0 =
      (msOnlyName "bar").matches c9Record :=
  claim9_theorem ⟨"bar", [(1, c9Record)]⟩ (msOnlyName "bar") 0 (by decide)

/-! ## Binary prefix-placeholder rewriting (`install/link.rs`)

`copy_replace_prefix_binary` memory-maps the source file, repeatedly searches
the remaining slice for the old placeholder, and emits the bytes before the
match, the new placeholder, the original C-string suffix up to its
terminating NUL, and NUL padding.  The source writes the bytes to the
destination file while feeding a SHA-256 state with exactly the same bytes
and returns the hex digest; the model returns the written byte string itself
(of which the digest is a function).  A Rust panic (out-of-bounds slice
index) is modelled as an explicit error; the loop, which does not terminate
when the old placeholder is empty, runs on fuel `source.length + 1`, which is
exact for every non-empty placeholder. -/

inductive RewriteError where
  | indexOutOfBounds
  | fuelExhausted
deriving DecidableEq, Repr

/-- `twoway::find_bytes`: the index of the first occurrence of `needle` in
`haystack` (`some 0` for an empty needle). -/
def findBytes (haystack needle : List Nat) : Option Nat :=
  if needle.isPrefixOf haystack then some 0
  else
    match haystack with
    | [] => none
    | _ :: rest => (findBytes rest needle).map (· + 1)

/-- The scan for the terminating NUL of the enclosing C-string:
`while end < source.len() && source_bytes[end] != 0 { end += 1 }`.
The loop bound is the length of the whole mapped file (`source.len()`) while
the indexing is into the remaining slice (`source_bytes`), exactly as in the
source; indexing past the slice is the modelled panic.  The structural
recursion is on `fullLen − e`, the exact number of remaining loop tests
(`e < fullLen` fails iff `fullLen − e = 0`). -/
def scanEndGo (bytes : List Nat) : Nat → Nat → Except RewriteError Nat
  | 0, e => .ok e
  | remaining + 1, e =>
    match bytes[e]? with
    | none => .error .indexOutOfBounds
    | some b => if b ≠ 0 then scanEndGo bytes remaining (e + 1) else .ok e

/-- The NUL scan started at index `e` (see `scanEndGo`). -/
def scanEnd (fullLen : Nat) (bytes : List Nat) (e : Nat) : Except RewriteError Nat :=
  scanEndGo bytes (fullLen - e) e

/-- The replacement loop of `copy_replace_prefix_binary`.  Each iteration
emits `source_bytes[..index]`, the new placeholder, the suffix
`source_bytes[index+|old|..end]` and `|old| − |new|` (clamped to 0) NUL bytes,
then continues with `source_bytes[end..]`; when no occurrence remains the
rest is emitted. -/
def rewriteLoop (fullLen : Nat) (oldPlaceholder newPlaceholder : List Nat) :
    Nat → List Nat → Except RewriteError (List Nat)
  | 0, _ => .error .fuelExhausted
  | fuel + 1, sourceBytes =>
    match findBytes sourceBytes oldPlaceholder with
    | none => .ok sourceBytes
    | some index =>
      match scanEnd fullLen sourceBytes (index + oldPlaceholder.length) with
      | .error e => .error e
      | .ok endIdx =>
        let suffix := (sourceBytes.take endIdx).drop (index + oldPlaceholder.length)
        let padding := List.replicate
          (if oldPlaceholder.length > newPlaceholder.length then
            oldPlaceholder.length - newPlaceholder.length
          else 0) 0
        match rewriteLoop fullLen oldPlaceholder newPlaceholder fuel
            (sourceBytes.drop endIdx) with
        | .error e => .error e
        | .ok rest =>
          .ok (sourceBytes.take index ++ newPlaceholder ++ suffix ++ padding ++ rest)

/-- `copy_replace_prefix_binary` on the in-memory byte strings. -/
def copyReplacePrefixBinary (source oldPlaceholder newPlaceholder : List Nat) :
    Except RewriteError (List Nat) :=
  rewriteLoop source.length oldPlaceholder newPlaceholder (source.length + 1) source

/-- `copy_replace_prefix_text`, the text-mode loop: no C-string suffix and no
padding, the match is simply replaced. -/
def textLoop (oldPlaceholder newPlaceholder : List Nat) :
    Nat → List Nat → Except RewriteError (List Nat)
  | 0, _ => .error .fuelExhausted
  | fuel + 1, sourceBytes =>
    match findBytes sourceBytes oldPlaceholder with
    | none => .ok sourceBytes
    | some index =>
      match textLoop oldPlaceholder newPlaceholder fuel
          (sourceBytes.drop (index + oldPlaceholder.length)) with
      | .error e => .error e
      | .ok rest => .ok (sourceBytes.take index ++ newPlaceholder ++ rest)

/-- `copy_replace_prefix_text` on the in-memory byte strings. -/
def copyReplacePrefixText (source oldPlaceholder newPlaceholder : List Nat) :
    Except RewriteError (List Nat) :=
  textLoop oldPlaceholder newPlaceholder (source.length + 1) source

/-! ### Rewrite lemmas -/

theorem findBytesLe (haystack needle : List Nat) (i : Nat)
    (h : findBytes haystack needle = some i) :
    i ≤ haystack.length ∧ needle.isPrefixOf (haystack.drop i) = true := by
  induction haystack generalizing i with
  | nil =>
    unfold findBytes at h
    split at h
    · rename_i hpre
      cases h
      exact ⟨Nat.le_refl _, hpre⟩
    · cases h
  | cons x rest ih =>
    unfold findBytes at h
    split at h
    · rename_i hpre
      cases h
      exact ⟨Nat.zero_le _, hpre⟩
    · simp only [Option.map_eq_some'] at h
      obtain ⟨j, hj, rfl⟩ := h
      obtain ⟨h1, h2⟩ := ih j hj
      exact ⟨by simpa using Nat.succ_le_succ h1, h2⟩

theorem findBytesStart (haystack needle : List Nat) (i : Nat)
    (h : findBytes haystack needle = some i) :
    i + needle.length ≤ haystack.length := by
  obtain ⟨h1, h2⟩ := findBytesLe haystack needle i h
  have hpre : needle <+: haystack.drop i := by
    exact List.isPrefixOf_iff_prefix.mp h2
  have := hpre.length_le
  simp only [List.length_drop] at this
  omega

theorem scanEndGoBounds (bytes : List Nat) :
    ∀ remaining e r, scanEndGo bytes remaining e = .ok r → e ≤ bytes.length →
      e ≤ r ∧ r ≤ bytes.length := by
  intro remaining
  induction remaining with
  | zero =>
    intro e r h he
    cases h
    exact ⟨Nat.le_refl _, he⟩
  | succ n ih =>
    intro e r h he
    unfold scanEndGo at h
    cases hb : bytes[e]? with
    | none =>
      simp only [hb] at h
      cases h
    | some b =>
      simp only [hb] at h
      have hlt : e < bytes.length := by
        by_contra hge
        rw [List.getElem?_eq_none (by omega)] at hb
        cases hb
      by_cases hz : b ≠ 0
      · rw [if_pos hz] at h
        have := ih (e + 1) r h (by omega)
        exact ⟨by omega, this.2⟩
      · rw [if_neg hz] at h
        cases h
        exact ⟨Nat.le_refl _, by omega⟩

theorem scanEndBounds (fullLen : Nat) (bytes : List Nat) (e r : Nat)
    (h : scanEnd fullLen bytes e = .ok r) (he : e ≤ bytes.length) :
    e ≤ r ∧ r ≤ bytes.length :=
  scanEndGoBounds bytes (fullLen - e) e r h he

theorem rewriteLoopLength (fullLen : Nat) (oldPlaceholder newPlaceholder : List Nat)
    (hle : newPlaceholder.length ≤ oldPlaceholder.length) :
    ∀ fuel bytes out,
      rewriteLoop fullLen oldPlaceholder newPlaceholder fuel bytes = .ok out →
      out.length = bytes.length := by
  intro fuel
  induction fuel with
  | zero => intro bytes out h; cases h
  | succ n ih =>
    intro bytes out h
    unfold rewriteLoop at h
    cases hfind : findBytes bytes oldPlaceholder with
    | none =>
      simp only [hfind] at h
      cases h
      rfl
    | some index =>
      simp only [hfind] at h
      have hstart : index + oldPlaceholder.length ≤ bytes.length :=
        findBytesStart bytes oldPlaceholder index hfind
      cases hscan : scanEnd fullLen bytes (index + oldPlaceholder.length) with
      | error e =>
        simp only [hscan] at h
        cases h
      | ok endIdx =>
        simp only [hscan] at h
        obtain ⟨hse, hsb⟩ := scanEndBounds fullLen bytes _ _ hscan hstart
        cases hrec : rewriteLoop fullLen oldPlaceholder newPlaceholder n
            (bytes.drop endIdx) with
        | error e =>
          simp only [hrec] at h
          cases h
        | ok rest =>
          simp only [hrec] at h
          cases h
          have hr := ih (bytes.drop endIdx) rest hrec
          simp only [List.length_append, List.length_take, List.length_drop,
            List.length_replicate] at hr ⊢
          split
          · omega
          · omega

/-- A concrete source on which the rewrite panics: a second occurrence of the
placeholder whose C-string runs past the end of the remaining slice. -/
theorem rewritePanicExample :
    copyReplacePrefixBinary [1, 2, 3, 0, 9, 1, 2, 3] [1, 2, 3] [7] =
      .error .indexOutOfBounds := rfl

/-- C5: the claim is false on the code as universally stated: on a source
with a second placeholder occurrence whose enclosing C-string reaches the end
of the remaining slice, the NUL scan (bounded by the full file length but
indexing the remaining slice) panics, so no output is produced at all. -/
theorem claim5_counterexample :
    ([7] : List Nat).length ≤ ([1, 2, 3] : List Nat).length ∧
    copyReplacePrefixBinary [1, 2, 3, 0, 9, 1, 2, 3] [1, 2, 3] [7] =
      .error .indexOutOfBounds :=
  ⟨by decide, rewritePanicExample⟩

/-- C5 (amended): whenever the binary rewrite completes (it can panic, see
the out-of-bounds slip) and the new placeholder is no longer than the old,
the output byte string has exactly the length of the source: each occurrence
emits the new placeholder, the original C-string suffix up to its NUL, and
`|old| − |new|` NUL padding bytes. -/
theorem claim5_theorem (source oldPlaceholder newPlaceholder out : List Nat)
    (hle : newPlaceholder.length ≤ oldPlaceholder.length)
    (hok : copyReplacePrefixBinary source oldPlaceholder newPlaceholder = .ok out) :
    out.length = source.length :=
  rewriteLoopLength source.length oldPlaceholder newPlaceholder hle
    (source.length + 1) source out hok

/-- C5 witness: the spec's own end-to-end example — rewriting
`b"xx/old/prefix/lib\0yy"` from `"/old/prefix"` to `"/np"` gives
`b"xx/np/lib" ++ 8 NUL padding bytes ++ b"\0yy"`, of the source's length. -/
theorem claim5_theorem_witness :
    ([120, 120, 47, 110, 112, 47, 108, 105, 98, 0, 0, 0, 0, 0, 0, 0, 0, 0,
      121, 121] : List Nat).length =
    ([120, 120, 47, 111, 108, 100, 47, 112, 114, 101, 102, 105, 120, 47, 108,
      105, 98, 0, 121, 121] : List Nat).length :=
  claim5_theorem
    [120, 120, 47, 111, 108, 100, 47, 112, 114, 101, 102, 105, 120, 47, 108,
      105, 98, 0, 121, 121]
    [47, 111, 108, 100, 47, 112, 114, 101, 102, 105, 120]
    [47, 110, 112]
    [120, 120, 47, 110, 112, 47, 108, 105, 98, 0, 0, 0, 0, 0, 0, 0, 0, 0,
      121, 121]
    (by decide) (by rfl)

/-- C10: the claim is right about the intent but the code has a slip: on the
byte string `b"/old\0x/old"` with placeholder `"/old"`, the scan for the
terminating NUL of the second occurrence is bounded by the full file length
(10) while indexing the 6-byte remaining slice, so the source indexes
`source_bytes[6]` out of bounds and panics instead of returning a digest. -/
theorem claim10_theorem :
    copyReplacePrefixBinary [47, 111, 108, 100, 0, 120, 47, 111, 108, 100]
      [47, 111, 108, 100] [47, 110, 112] = .error .indexOutOfBounds := rfl

/-! ## A model filesystem for validation and linking

Paths are component lists; the filesystem maps a path to its entry.  `stat`
(the following metadata call) resolves one level of symlink — symlink chains
do not occur in any claim and are outside the model — while `lstat`
(`symlink_metadata`) succeeds exactly when the path has an entry.  The model
filesystem has no permission bits and no transient I/O failures. -/

abbrev ModelPath := List String

inductive FsEntry where
  | regularFile (content : List Nat)
  | directory
  | symlinkTo (target : ModelPath)
deriving DecidableEq, Repr

abbrev Fs := ModelPath → Option FsEntry

/-- What `std::fs::Metadata` exposes of an entry: kind and byte length. -/
inductive Metadata where
  | file (len : Nat)
  | dir
deriving DecidableEq, Repr

def Metadata.isFile : Metadata → Bool
  | .file _ => true
  | .dir => false

def Metadata.len : Metadata → Nat
  | .file n => n
  | .dir => 0

/-- `tokio::fs::metadata` / `std::fs::metadata`: follows a symlink to its
target; `none` is the I/O error for a missing path or dangling link. -/
def fsMetadata (fs : Fs) (p : ModelPath) : Option Metadata :=
  match fs p with
  | none => none
  | some (.regularFile c) => some (.file c.length)
  | some .directory => some .dir
  | some (.symlinkTo t) =>
    match fs t with
    | some (.regularFile c) => some (.file c.length)
    | some .directory => some .dir
    | _ => none

/-- `tokio::fs::symlink_metadata`: the no-follow stat, which succeeds exactly
when the path itself has an entry (of any kind). -/
def fsSymlinkMetadata (fs : Fs) (p : ModelPath) : Option FsEntry := fs p

/-- Point update of the model filesystem. -/
def updateFs (fs : Fs) (p : ModelPath) (e : Option FsEntry) : Fs :=
  fun q => if q = p then e else fs q

/-- `File::open` + read: the content of the regular file at `p`, following
one level of symlink; `none` is the open error. -/
def readFileBytes (fs : Fs) (p : ModelPath) : Option (List Nat) :=
  match fs p with
  | some (.regularFile c) => some c
  | some (.symlinkTo t) =>
    match fs t with
    | some (.regularFile c) => some c
    | _ => none
  | _ => none

/-- `Path::is_file`: the following stat reports a regular file. -/
def isFileAt (fs : Fs) (p : ModelPath) : Bool :=
  match fsMetadata fs p with
  | some (.file _) => true
  | _ => false

/-! ## `info/paths.json` entries (`package_archive/mod.rs`) -/

inductive PathType where
  | hardLink
  | softLink
  | directory
deriving DecidableEq, Repr

inductive FileMode where
  | binary
  | text
deriving DecidableEq, Repr

/-- One row of `info/paths.json`.  The `prefix_placeholder` string is carried
as its byte string (the source converts with `as_bytes`). -/
structure PathEntry where
  relativePath : ModelPath
  pathType : PathType
  sha256 : String
  sizeInBytes : Nat
  fileMode : FileMode
  prefixPlaceholder : Option (List Nat)
  noLink : Bool
deriving DecidableEq, Repr

/-! ## Package validation (`install/mod.rs`) -/

inductive ValidationError where
  | fileMetaDataError (path : ModelPath)
  | notAFile (path : ModelPath)
  | fileSizeMismatch (path : ModelPath) (expected got : Nat)
deriving DecidableEq, Repr

/-- `validate_package_entry` from `install/mod.rs`: joins the entry path,
issues the following and the no-follow stat, and matches on the pair with the
source's arm order — `(Err, Err)` is a metadata error, `(_, Ok(_))` returns
`Ok(())` at once, and only `(Ok(metadata), Err)` reaches the is-file and
size checks. -/
def validatePackageEntry (fs : Fs) (archivePath : ModelPath) (entry : PathEntry) :
    Except ValidationError Unit :=
  let entryPath := archivePath ++ entry.relativePath
  match fsMetadata fs entryPath, fsSymlinkMetadata fs entryPath with
  | none, none => .error (.fileMetaDataError entry.relativePath)
  | _, some _ => .ok ()
  | some metadata, none =>
    if ¬ metadata.isFile then .error (.notAFile entry.relativePath)
    else if metadata.len ≠ entry.sizeInBytes then
      .error (.fileSizeMismatch entry.relativePath entry.sizeInBytes metadata.len)
    else .ok ()

/-- A paths.json row declaring 10 bytes for file `f`, hard-linked. -/
def claim3Entry : PathEntry :=
  { relativePath := ["f"], pathType := .hardLink, sha256 := "", sizeInBytes := 10,
    fileMode := .binary, prefixPlaceholder := none, noLink := false }

/-- An extracted package directory whose `f` is a 5-byte regular file. -/
def claim3Fs : Fs :=
  fun p => if p = ["pkg", "f"] then some (.regularFile [1, 2, 3, 4, 5]) else none

/-- An extracted package directory whose `f` is a directory. -/
def claim3DirFs : Fs :=
  fun p => if p = ["pkg", "f"] then some .directory else none

/-- C3: the claim is right and the code is wrong.  The `(_, Ok(_))` match arm
accepts every path whose no-follow stat succeeds — that is, every existing
path, not only symlinks — so the is-file and size checks below it are
unreachable: a 5-byte regular file declared as 10 bytes validates, and so
does a directory; only a completely missing path fails. -/
theorem claim3_theorem :
    validatePackageEntry claim3Fs ["pkg"] claim3Entry = .ok () ∧
    validatePackageEntry claim3DirFs ["pkg"] claim3Entry = .ok () ∧
    validatePackageEntry (fun _ => none) ["pkg"] claim3Entry =
      .error (.fileMetaDataError ["f"]) :=
  ⟨rfl, rfl, rfl⟩

/-! ## File linking (`install/link.rs`) -/

inductive LinkError where
  | parentCreateError
  | sourceOpenError
  | copyError
  | rewritePanic
deriving DecidableEq, Repr

/-- The non-empty prefixes of a directory path, i.e. the chain of directories
`create_dir_all` ensures. -/
def pathPrefixes (dir : ModelPath) : List ModelPath :=
  dir.inits.filter (fun p => p ≠ [])

/-- `std::fs::create_dir_all`: creates every missing ancestor directory;
fails when some ancestor exists and is not a directory. -/
def createDirAll (fs : Fs) (dir : ModelPath) : Except LinkError Fs :=
  if (pathPrefixes dir).all (fun p =>
      match fs p with
      | none => true
      | some .directory => true
      | some _ => false) then
    .ok (fun p =>
      if p ∈ pathPrefixes dir ∧ fs p = none then some .directory else fs p)
  else .error .parentCreateError

/-- `hard_link_entry`: `std::fs::hard_link` with symlink and copy fallbacks.
In the error-free model filesystem hard-linking succeeds whenever the source
has an entry (sharing it), and otherwise the symlink fallback succeeds, so
the final copy fallback is unreachable in the model. -/
def hardLinkEntry (fs : Fs) (src dst : ModelPath) : Except LinkError Fs :=
  match fs src with
  | some e => .ok (updateFs fs dst (some e))
  | none => .ok (updateFs fs dst (some (.symlinkTo src)))

/-- `soft_link_entry`: creating a symlink, which succeeds in the model (the
copy fallback is unreachable). -/
def softLinkEntry (fs : Fs) (src dst : ModelPath) : Except LinkError Fs :=
  .ok (updateFs fs dst (some (.symlinkTo src)))

/-- `copy_entry` (`std::fs::copy`): reads the source regular file (following
a symlink) and writes its bytes at the destination; fails when the source is
not readable as a file or the destination resolves to a directory. -/
def copyEntry (fs : Fs) (src dst : ModelPath) : Except LinkError Fs :=
  match readFileBytes fs src with
  | none => .error .copyError
  | some content =>
    match fsMetadata fs dst with
    | some .dir => .error .copyError
    | _ => .ok (updateFs fs dst (some (.regularFile content)))

/-- The byte string of a path, used for the replacement prefix
(`prefix.to_string_lossy()`). -/
def pathBytes (p : ModelPath) : List Nat :=
  (String.intercalate "/" p).toList.map (fun c => c.toNat)

/-- `link_file` from `install/link.rs`: ensure parent directories, remove an
existing destination file (clobbering), then either rewrite the prefix
placeholder (text or binary mode) or run the `hard-link` / `soft-link` /
`copy` chain gated by `always_copy` (which the caller passes as
`!entry.no_link`).  The returned option carries the bytes written by a
placeholder rewrite (the source returns their SHA-256 hex digest); the
binary branch's `set_permissions` has no counterpart because the model
filesystem has no permission bits. -/
def linkFile (fs : Fs) (prefixPath : ModelPath) (sourcePath destinationPath : ModelPath)
    (placeholder : Option (List Nat)) (pathType : PathType) (fileMode : FileMode)
    (alwaysCopy : Bool) : Except LinkError (Fs × Option (List Nat)) :=
  match (if destinationPath.dropLast = [] then .ok fs
         else if (fsMetadata fs destinationPath.dropLast).isSome then .ok fs
         else createDirAll fs destinationPath.dropLast : Except LinkError Fs) with
  | .error e => .error e
  | .ok fs1 =>
    let fs2 := if isFileAt fs1 destinationPath then
        updateFs fs1 destinationPath none
      else fs1
    match placeholder with
    | some oldPlaceholder =>
      match readFileBytes fs2 sourcePath with
      | none => .error .sourceOpenError
      | some content =>
        match (match fileMode with
               | .text => copyReplacePrefixText content oldPlaceholder (pathBytes prefixPath)
               | .binary => copyReplacePrefixBinary content oldPlaceholder (pathBytes prefixPath)) with
        | .error _ => .error .rewritePanic
        | .ok written =>
          .ok (updateFs fs2 destinationPath (some (.regularFile written)), some written)
    | none =>
      if pathType = .hardLink ∧ alwaysCopy = true then
        match hardLinkEntry fs2 sourcePath destinationPath with
        | .error e => .error e
        | .ok fs3 => .ok (fs3, none)
      else if pathType = .softLink ∧ alwaysCopy = true then
        match softLinkEntry fs2 sourcePath destinationPath with
        | .error e => .error e
        | .ok fs3 => .ok (fs3, none)
      else
        match copyEntry fs2 sourcePath destinationPath with
        | .error e => .error e
        | .ok fs3 => .ok (fs3, none)

/-- The outcome of `linkFile` at the destination path, paired with the
rewrite digest source: the observable of one link operation. -/
def linkFileDestResult (fs : Fs) (prefixPath sourcePath destinationPath : ModelPath)
    (placeholder : Option (List Nat)) (pathType : PathType) (fileMode : FileMode)
    (alwaysCopy : Bool) : Except LinkError (Option FsEntry × Option (List Nat)) :=
  match linkFile fs prefixPath sourcePath destinationPath placeholder pathType
      fileMode alwaysCopy with
  | .error e => .error e
  | .ok r => .ok (r.1 destinationPath, r.2)

/-- A cache with one three-byte source file and nothing else. -/
def claim4Fs : Fs :=
  fun p => if p = ["cache", "pkg", "f"] then some (.regularFile [1, 2, 3]) else none

/-- C4: the claim is false on the code.  For an entry with `no_link = true`
(so `always_copy = !no_link = false`) and no placeholder, `link_file` does
not skip the entry: the hard-link and soft-link arms are disabled and the
final `copy_entry` arm runs, so a regular file with the source's bytes is
created at the destination. -/
theorem claim4_counterexample :
    linkFileDestResult claim4Fs ["prefix"] ["cache", "pkg", "f"] ["prefix", "f"]
        none .hardLink .binary false =
      .ok (some (.regularFile [1, 2, 3]), none) := rfl

/-- C4 (amended): an entry with `no_link = true` and no prefix placeholder is
not skipped — instead, hard-linking and soft-linking are disabled and the
file is copied: when the source is a regular file, the destination is absent
and the parent chain is present or creatable, `link_file` creates a regular
file with the source's bytes at the destination and returns no digest. -/
theorem claim4_theorem (fs : Fs) (prefixPath sourcePath destinationPath : ModelPath)
    (pathType : PathType) (fileMode : FileMode) (content : List Nat)
    (hsrc : fs sourcePath = some (.regularFile content))
    (hdst : fs destinationPath = none)
    (hparent : destinationPath.dropLast = [] ∨
      (fsMetadata fs destinationPath.dropLast).isSome = true ∨
      (pathPrefixes destinationPath.dropLast).all (fun p =>
        match fs p with
        | none => true
        | some .directory => true
        | some _ => false) = true) :
    linkFileDestResult fs prefixPath sourcePath destinationPath none pathType
        fileMode false =
      .ok (some (.regularFile content), none) := by
  obtain ⟨fs1, hstep, hsrc1, hdst1⟩ :
      ∃ fs1, (if destinationPath.dropLast = [] then Except.ok fs
         else if (fsMetadata fs destinationPath.dropLast).isSome then Except.ok fs
         else createDirAll fs destinationPath.dropLast : Except LinkError Fs) = .ok fs1 ∧
        fs1 sourcePath = some (.regularFile content) ∧
        fs1 destinationPath = none := by
    by_cases h0 : destinationPath.dropLast = []
    · exact ⟨fs, by rw [if_pos h0], hsrc, hdst⟩
    · by_cases h1 : (fsMetadata fs destinationPath.dropLast).isSome
      · exact ⟨fs, by rw [if_neg h0, if_pos h1], hsrc, hdst⟩
      · rcases hparent with hp | hp | hp
        · exact absurd hp h0
        · exact absurd hp (by simpa using h1)
        · refine ⟨(fun p =>
              if p ∈ pathPrefixes destinationPath.dropLast ∧ fs p = none then
                some FsEntry.directory
              else fs p), ?_, ?_, ?_⟩
          · rw [if_neg h0, if_neg h1]
            unfold createDirAll
            rw [if_pos hp]
          · show (if sourcePath ∈ pathPrefixes destinationPath.dropLast ∧
                fs sourcePath = none then some FsEntry.directory
              else fs sourcePath) = some (FsEntry.regularFile content)
            rw [if_neg (by simp [hsrc]), hsrc]
          · show (if destinationPath ∈ pathPrefixes destinationPath.dropLast ∧
                fs destinationPath = none then some FsEntry.directory
              else fs destinationPath) = none
            have hnotmem : destinationPath ∉ pathPrefixes destinationPath.dropLast := by
              intro hmem
              have hpre : destinationPath <+: destinationPath.dropLast :=
                (List.mem_inits _ _).mp (List.mem_filter.mp hmem).1
              have hle := hpre.length_le
              have hlt : destinationPath.dropLast.length < destinationPath.length := by
                cases destinationPath with
                | nil => simp at h0
                | cons a l => simp [List.length_dropLast]
              omega
            rw [if_neg (by simp [hnotmem]), hdst]
  have hisfile : isFileAt fs1 destinationPath = false := by
    simp [isFileAt, fsMetadata, hdst1]
  unfold linkFileDestResult linkFile
  simp only [hstep, hisfile, Bool.false_eq_true, if_false, and_false, if_neg,
    not_false_eq_true]
  have hcopy : copyEntry fs1 sourcePath destinationPath =
      .ok (updateFs fs1 destinationPath (some (.regularFile content))) := by
    unfold copyEntry
    simp [readFileBytes, hsrc1, fsMetadata, hdst1]
  simp only [hcopy]
  simp [updateFs]

/-- C4 witness: the amended theorem on a concrete one-file cache with a
soft-link text entry. -/
theorem claim4_theorem_witness :
    linkFileDestResult claim4Fs ["prefix"] ["cache", "pkg", "f"] ["prefix", "f"]
        none .softLink .text false =
      .ok (some (.regularFile [1, 2, 3]), none) :=
  claim4_theorem claim4Fs ["prefix"] ["cache", "pkg", "f"] ["prefix", "f"]
    .softLink .text [1, 2, 3] (by decide) (by decide)
    (Or.inr (Or.inr (by decide)))

/-! ## The solver index (`solver/resolver.rs`)

The source's `Index` owns the repodata providers plus two memoization caches
(`package_variants_cache`, `match_spec_cache`) whose only observable effect is
sharing; the model exposes the same data as the total function `variantsOf`
(provider `records` calls are modelled as infallible, i.e. repodata that
parses) and recomputes what the source caches.  `channel_config` only feeds
the spec-string parser, which the model bypasses by carrying parsed specs. -/

structure Index where
  variantsOf : String → List (Nat × PackageRecord)

/-- `Index::package_variants`: the `PackageVariants` for a name. -/
def Index.packageVariants (idx : Index) (package : String) : PackageVariants :=
  { name := package, variants := idx.variantsOf package }

/-- Rust `bool::cmp` (`false < true`). -/
def cmpBool (a b : Bool) : Ordering :=
  if a = b then .eq else if a then .gt else .lt

/-- Rust `usize::cmp` / the conda version comparison on the modelled
versions. -/
def cmpNat (a b : Nat) : Ordering :=
  if a < b then .lt else if b < a then .gt else .eq

/-- Rust `i32::cmp` for the dependency score. -/
def cmpInt (a b : Int) : Ordering :=
  if a < b then .lt else if b < a then .gt else .eq

/-- Rust `Option::cmp` on timestamps (`None` sorts below `Some`). -/
def cmpOptionNat : Option Nat → Option Nat → Ordering
  | none, none => .eq
  | none, some _ => .lt
  | some _, none => .gt
  | some a, some b => cmpNat a b

/-- `Index::find_highest_version` (memoized in the source): over all records
matching the spec, fold up the maximum version, and the flag that starts as
"the first record has tracked features" and is and-ed with "this record has
no tracked features" for every further record — exactly the source's fold. -/
def Index.findHighestVersion (idx : Index) (matchSpec : MatchSpec) :
    Option (Version × Bool) :=
  match matchSpec.name with
  | none => none
  | some name =>
    ((idx.variantsOf name).filter (fun v => matchSpec.matches v.2)).foldl
      (fun init v =>
        some (match init with
          | none => (v.2.version, !(v.2.trackFeatures.isEmpty))
          | some (version, hasTracked) =>
            (max version v.2.version, hasTracked && v.2.trackFeatures.isEmpty)))
      none

/-- The pairs `(name, spec)` of the specs that carry a name, in order
(the source's `filter_map` over a spec list). -/
def specsByName (specs : List MatchSpec) : List (String × MatchSpec) :=
  specs.filterMap (fun s => s.name.map (fun n => (n, s)))

/-- `HashMap` collect over `specsByName`: the last spec wins for a repeated
name (`insert` overwrites). -/
def lastSpecByName (specs : List MatchSpec) (n : String) : Option MatchSpec :=
  (specsByName specs).foldl (fun acc p => if p.1 = n then some p.2 else acc) none

/-- The dependency-strength score of `Index::compare_variants`: for every
named spec of `a` whose name also keys a spec of `b` (and which differs from
it), −100/+100 on the tracked-features comparison of the highest matching
records, else ±1 on their version comparison. -/
def depScore (idx : Index) (aSpecs bSpecs : List MatchSpec) : Int :=
  (specsByName aSpecs).foldl
    (fun totalScore p =>
      match lastSpecByName bSpecs p.1 with
      | none => totalScore
      | some bSpec =>
        if p.2 = bSpec then totalScore
        else
          match idx.findHighestVersion p.2, idx.findHighestVersion bSpec with
          | some (aVersion, aTracked), some (bVersion, bTracked) =>
            match cmpBool aTracked bTracked with
            | .lt => totalScore + (-100)
            | .gt => totalScore + 100
            | .eq =>
              totalScore +
                (match cmpNat aVersion bVersion with
                 | .lt => 1
                 | .eq => 0
                 | .gt => -1)
          | _, _ => totalScore)
    0

/-- `Index::compare_variants`: tracked-feature presence first (a variant with
tracked features sorts after one without — note the source's
`a_has_tracked_features` variable actually holds `is_empty()`), then higher
version first, then higher build number first, then the dependency score,
then newer timestamp first. -/
def Index.compareVariants (idx : Index) (variants : PackageVariants)
    (aIdx bIdx : Nat) : Ordering :=
  let a := (variants.variants.getD aIdx default).2
  let b := (variants.variants.getD bIdx default).2
  match cmpBool b.trackFeatures.isEmpty a.trackFeatures.isEmpty with
  | .lt => .lt
  | .gt => .gt
  | .eq =>
    match cmpNat a.version b.version with
    | .lt => .gt
    | .gt => .lt
    | .eq =>
      match cmpNat a.buildNumber b.buildNumber with
      | .lt => .gt
      | .gt => .lt
      | .eq =>
        match cmpInt (depScore idx a.depends b.depends) 0 with
        | .eq => cmpOptionNat b.timestamp a.timestamp
        | ord => ord

/-- `Index::variants_order`: the indices `0..len` sorted (stably) by
`compare_variants`; the source memoizes this in the `solver_order` cell. -/
def Index.variantsOrder (idx : Index) (variants : PackageVariants) : List Nat :=
  List.insertionSort (fun a b => idx.compareVariants variants a b ≠ Ordering.gt)
    (List.range variants.variants.length)

/-- The candidate loop of `choose_package_version`: keep the first pair whose
subset size is positive and strictly below the current minimum.  The
`usize::MAX` sentinel of the source is modelled as `none`. -/
def chooseLoop (idx : Index) :
    List (String × PackageVariantsSubset) → Option Nat →
    Option (String × PackageVariantsSubset) →
    Option (String × PackageVariantsSubset)
  | [], _, minPack => minPack
  | (package, range) :: rest, minCount, minPack =>
    let count := (idx.packageVariants package).subsetSize range
    if (match minCount with
        | none => true
        | some mc => decide (count < mc)) && decide (0 < count) then
      chooseLoop idx rest (some count) (some (package, range))
    else
      chooseLoop idx rest minCount minPack

/-- `choose_package_version`: pick the minimum-positive-size candidate, then
return the first variant index of its precomputed order that the subset
contains; with no such candidate or no contained index, the
"no packages found" error. -/
def Index.choosePackageVersion (idx : Index)
    (potentialPackages : List (String × PackageVariantsSubset)) :
    Except String (String × Option Nat) :=
  match chooseLoop idx potentialPackages none none with
  | some (package, range) =>
    match (idx.variantsOrder (idx.packageVariants package)).find?
        (fun variantIdx => range.containsIndex variantIdx) with
    | some variantIdx => .ok (package, some variantIdx)
    | none => .error "no packages found that can be chosen"
  | none => .error "no packages found that can be chosen"

/-! ## `get_dependencies` (`solver/resolver.rs`) -/

inductive Requirement where
  | required (range : PackageVariantsSubset)
  | constrained (range : PackageVariantsSubset)
deriving DecidableEq, Repr

def Requirement.range : Requirement → PackageVariantsSubset
  | .required r => r
  | .constrained r => r

inductive Dependencies where
  | unknown
  | known (constraints : List (String × Requirement))
deriving DecidableEq, Repr

/-- The one modelled failure of `get_dependencies`: the
`expect("matchspec without package name")` panic on a nameless spec. -/
inductive GetDependenciesError where
  | missingName
deriving DecidableEq, Repr

/-- `DependencyConstraints` (a hash map) modelled as an association list in
insertion order; `entry(..).and_modify(..).or_insert_with(..)`. -/
def updateEntry (m : List (String × Requirement)) (key : String)
    (modify : Requirement → Requirement) (dflt : Requirement) :
    List (String × Requirement) :=
  match m with
  | [] => [(key, dflt)]
  | (k, v) :: rest =>
    if k = key then (k, modify v) :: rest
    else (k, v) :: updateEntry rest key modify dflt

def lookupEntry (m : List (String × Requirement)) (key : String) :
    Option Requirement :=
  match m with
  | [] => none
  | (k, v) :: rest => if k = key then some v else lookupEntry rest key

/-- The modification a `constrains` entry applies
(`and_modify`: intersect, keeping the required/constrained flavor). -/
def constrainsModify (range : PackageVariantsSubset) :
    Requirement → Requirement
  | .required r => .required (r.intersection range)
  | .constrained r => .constrained (r.intersection range)

/-- The `constrains` loop of `get_dependencies`: each constraint's subset is
intersected into the entry for its name, keeping the entry's
required/constrained flavor, or inserted as `Constrained`. -/
def processConstrains (idx : Index) :
    List MatchSpec → List (String × Requirement) →
    Except GetDependenciesError (List (String × Requirement))
  | [], result => .ok result
  | matchSpec :: rest, result =>
    match matchSpec.name with
    | none => .error .missingName
    | some name =>
      processConstrains idx rest
        (updateEntry result name
          (constrainsModify ((idx.packageVariants name).subsetFromMatchspec matchSpec))
          (.constrained ((idx.packageVariants name).subsetFromMatchspec matchSpec)))

/-- The modification a `depends` entry applies (`and_modify`: intersect and
promote to `Required`). -/
def dependsModify (range : PackageVariantsSubset) : Requirement → Requirement :=
  fun spec => .required (spec.range.intersection range)

/-- The requirement stored for a depends name after the update — the value
the source reads back from the occupied entry
(`entry(..).and_modify(..).or_insert_with(..)` followed by the `Empty`
check). -/
def dependsStep (result : List (String × Requirement)) (name : String)
    (range : PackageVariantsSubset) : Requirement :=
  match lookupEntry result name with
  | some spec => .required (spec.range.intersection range)
  | none => .required range

/-- The `depends` loop of `get_dependencies`: a name with no known variants
returns `Dependencies::Unknown` (whether or not it starts with `__`; the
non-virtual branch logs a warning first); otherwise the spec's subset is
intersected into the entry, which is promoted to `Required`, and when the
updated entry's subset is `Empty` the function returns
`Dependencies::Unknown`. -/
def processDepends (idx : Index) :
    List MatchSpec → List (String × Requirement) →
    Except GetDependenciesError Dependencies
  | [], result => .ok (.known result)
  | matchSpec :: rest, result =>
    match matchSpec.name with
    | none => .error .missingName
    | some name =>
      if (idx.packageVariants name).variants.isEmpty = true then
        if name.startsWith "__" then .ok .unknown
        else .ok .unknown
      else
        if (dependsStep result name
            ((idx.packageVariants name).subsetFromMatchspec matchSpec)).range =
            PackageVariantsSubset.Empty then .ok .unknown
        else
          processDepends idx rest
            (updateEntry result name
              (dependsModify ((idx.packageVariants name).subsetFromMatchspec matchSpec))
              (.required ((idx.packageVariants name).subsetFromMatchspec matchSpec)))

/-- `get_dependencies` for a variant's record: the `constrains` loop over an
empty map, then the `depends` loop. -/
def Index.getDependencies (idx : Index) (record : PackageRecord) :
    Except GetDependenciesError Dependencies :=
  match processConstrains idx record.constrains [] with
  | .error e => .error e
  | .ok result => processDepends idx record.depends result

/-! ## Claim: the solver-order comparison (`Index::compare_variants`) -/

/-- C7: `compare_variants` places a variant with tracked features after one
without; with equal tracked-feature presence the higher version comes first;
with equal versions too, the higher build number comes first.  (`a` before
`b` in the ascending sort iff the comparison returns `lt`.) -/
theorem cmpBoolRefl (x : Bool) : cmpBool x x = .eq := by
  simp [cmpBool]

/-- C7: `compare_variants` places a variant with tracked features after one
without; with equal tracked-feature presence the higher version comes first;
with equal versions too, the higher build number comes first.  (`a` before
`b` in the ascending sort iff the comparison returns `lt`.) -/
theorem claim7_theorem (idx : Index) (variants : PackageVariants) (aIdx bIdx : Nat)
    (srcA srcB : Nat) (a b : PackageRecord)
    (ha : variants.variants.getD aIdx default = (srcA, a))
    (hb : variants.variants.getD bIdx default = (srcB, b)) :
    (a.trackFeatures ≠ [] → b.trackFeatures = [] →
        idx.compareVariants variants aIdx bIdx = .gt) ∧
    (a.trackFeatures = [] → b.trackFeatures ≠ [] →
        idx.compareVariants variants aIdx bIdx = .lt) ∧
    ((a.trackFeatures = [] ↔ b.trackFeatures = []) → b.version < a.version →
        idx.compareVariants variants aIdx bIdx = .lt) ∧
    ((a.trackFeatures = [] ↔ b.trackFeatures = []) → a.version < b.version →
        idx.compareVariants variants aIdx bIdx = .gt) ∧
    ((a.trackFeatures = [] ↔ b.trackFeatures = []) → a.version = b.version →
        b.buildNumber < a.buildNumber →
        idx.compareVariants variants aIdx bIdx = .lt) ∧
    ((a.trackFeatures = [] ↔ b.trackFeatures = []) → a.version = b.version →
        a.buildNumber < b.buildNumber →
        idx.compareVariants variants aIdx bIdx = .gt) := by
  have ha2 : (variants.variants.getD aIdx default).2 = a := by rw [ha]
  have hb2 : (variants.variants.getD bIdx default).2 = b := by rw [hb]
  have hemptyOf : ∀ l : List String, l = [] → l.isEmpty = true := by
    intro l hl; subst hl; rfl
  have hnonemptyOf : ∀ l : List String, l ≠ [] → l.isEmpty = false := by
    intro l hl; cases l with
    | nil => exact absurd rfl hl
    | cons x xs => rfl
  have hsamePresence : ∀ hiff : a.trackFeatures = [] ↔ b.trackFeatures = [],
      b.trackFeatures.isEmpty = a.trackFeatures.isEmpty := by
    intro hiff
    by_cases hc : a.trackFeatures = []
    · rw [hemptyOf _ hc, hemptyOf _ (hiff.mp hc)]
    · rw [hnonemptyOf _ hc, hnonemptyOf _ (fun hbe => hc (hiff.mpr hbe))]
  refine ⟨?_, ?_, ?_, ?_, ?_, ?_⟩
  · intro h1 h2
    have hcb : cmpBool b.trackFeatures.isEmpty a.trackFeatures.isEmpty = .gt := by
      rw [hemptyOf _ h2, hnonemptyOf _ h1]
      rfl
    simp only [Index.compareVariants, ha2, hb2, hcb]
  · intro h1 h2
    have hcb : cmpBool b.trackFeatures.isEmpty a.trackFeatures.isEmpty = .lt := by
      rw [hemptyOf _ h1, hnonemptyOf _ h2]
      rfl
    simp only [Index.compareVariants, ha2, hb2, hcb]
  · intro h1 h2
    have he := hsamePresence h1
    have hn1 : ¬ (a.version < b.version) := Nat.not_lt.mpr (Nat.le_of_lt h2)
    have hv : cmpNat a.version b.version = .gt := by
      unfold cmpNat
      rw [if_neg hn1, if_pos h2]
    simp only [Index.compareVariants, ha2, hb2, he, cmpBoolRefl, hv]
  · intro h1 h2
    have he := hsamePresence h1
    have hv : cmpNat a.version b.version = .lt := by
      unfold cmpNat
      rw [if_pos h2]
    simp only [Index.compareVariants, ha2, hb2, he, cmpBoolRefl, hv]
  · intro h1 h2 h3
    have he := hsamePresence h1
    have hn1 : ¬ (a.version < b.version) := by rw [h2]; exact Nat.lt_irrefl _
    have hn2 : ¬ (b.version < a.version) := by rw [h2]; exact Nat.lt_irrefl _
    have hn3 : ¬ (a.buildNumber < b.buildNumber) := Nat.not_lt.mpr (Nat.le_of_lt h3)
    have hv : cmpNat a.version b.version = .eq := by
      unfold cmpNat
      rw [if_neg hn1, if_neg hn2]
    have hbn : cmpNat a.buildNumber b.buildNumber = .gt := by
      unfold cmpNat
      rw [if_neg hn3, if_pos h3]
    simp only [Index.compareVariants, ha2, hb2, he, cmpBoolRefl, hv, hbn]
  · intro h1 h2 h3
    have he := hsamePresence h1
    have hn1 : ¬ (a.version < b.version) := by rw [h2]; exact Nat.lt_irrefl _
    have hn2 : ¬ (b.version < a.version) := by rw [h2]; exact Nat.lt_irrefl _
    have hv : cmpNat a.version b.version = .eq := by
      unfold cmpNat
      rw [if_neg hn1, if_neg hn2]
    have hbn : cmpNat a.buildNumber b.buildNumber = .lt := by
      unfold cmpNat
      rw [if_pos h3]
    simp only [Index.compareVariants, ha2, hb2, he, cmpBoolRefl, hv, hbn]

/-- An index with no repodata, for concrete ordering checks. -/
def c7Index : Index := ⟨fun _ => []⟩

/-- A variant carrying a tracked feature. -/
def c7Tracked : PackageRecord :=
  { name := "p", version := 3, build := "t", buildNumber := 0,
    trackFeatures := ["feat"], timestamp := none, depends := [], constrains := [] }

/-- A variant without tracked features. -/
def c7Plain : PackageRecord :=
  { name := "p", version := 1, build := "u", buildNumber := 0,
    trackFeatures := [], timestamp := none, depends := [], constrains := [] }

/-- The two-variant set for the ordering witness. -/
def c7Variants : PackageVariants := ⟨"p", [(1, c7Tracked), (1, c7Plain)]⟩

/-- C7 witness: the tracked-feature variant (even with the higher version)
compares `gt`, i.e. sorts after the plain one. -/
theorem claim7_theorem_witness :
    c7Index.compareVariants c7Variants 0 1 = .gt :=
  (claim7_theorem c7Index c7Variants 0 1 1 1 c7Tracked c7Plain rfl rfl).1
    (by decide) rfl

/-! ## Claim: `choose_package_version` picks a minimal positive candidate -/

/-- Well-sizedness of a candidate pair: a `Discrete` bitset has one bit per
variant of its package (the identity invariant the source debug-asserts). -/
def subsetLenOkB (idx : Index) (p : String × PackageVariantsSubset) : Bool :=
  match p.2 with
  | .Discrete b => b.length == (idx.packageVariants p.1).variants.length
  | _ => true

/-- The subset size of a candidate pair. -/
def subsetSizeOf (idx : Index) (p : String × PackageVariantsSubset) : Nat :=
  (idx.packageVariants p.1).subsetSize p.2

/-- The selection condition of the candidate loop: strictly below the current
minimum (`none` = the `usize::MAX` sentinel) and positive. -/
def chooseCond (idx : Index) (q : String × PackageVariantsSubset)
    (minCount : Option Nat) : Bool :=
  (match minCount with
   | none => true
   | some mc => decide ((idx.packageVariants q.1).subsetSize q.2 < mc)) &&
  decide (0 < (idx.packageVariants q.1).subsetSize q.2)

theorem chooseCondIff (idx : Index) (q : String × PackageVariantsSubset) :
    ∀ minCount, chooseCond idx q minCount = true ↔
      (0 < subsetSizeOf idx q ∧
        ∀ c, minCount = some c → subsetSizeOf idx q < c) := by
  intro minCount
  cases minCount with
  | none => simp [chooseCond, subsetSizeOf]
  | some c =>
    simp only [chooseCond, Bool.and_eq_true, decide_eq_true_eq,
      Option.some.injEq, subsetSizeOf]
    constructor
    · rintro ⟨h1, h2⟩
      exact ⟨h2, fun c2 hc2 => hc2 ▸ h1⟩
    · rintro ⟨h1, h2⟩
      exact ⟨h2 c rfl, h1⟩

theorem chooseLoopCons (idx : Index) (q : String × PackageVariantsSubset)
    (rest : List (String × PackageVariantsSubset)) (minCount : Option Nat)
    (minPack : Option (String × PackageVariantsSubset)) :
    chooseLoop idx (q :: rest) minCount minPack =
      if chooseCond idx q minCount = true then
        chooseLoop idx rest (some ((idx.packageVariants q.1).subsetSize q.2)) (some q)
      else chooseLoop idx rest minCount minPack := by
  obtain ⟨qn, qr⟩ := q
  rfl

theorem chooseLoopSpec (idx : Index) :
    ∀ (l : List (String × PackageVariantsSubset)) (minCount : Option Nat)
      (minPack : Option (String × PackageVariantsSubset)),
      ((minCount = none ∧ minPack = none) ∨
        (∃ c p, minCount = some c ∧ minPack = some p ∧
          subsetSizeOf idx p = c ∧ 0 < c)) →
      (chooseLoop idx l minCount minPack = none →
          minPack = none ∧ ∀ q ∈ l, subsetSizeOf idx q = 0) ∧
      (∀ p, chooseLoop idx l minCount minPack = some p →
          0 < subsetSizeOf idx p ∧
          (∀ q ∈ l, 0 < subsetSizeOf idx q →
            subsetSizeOf idx p ≤ subsetSizeOf idx q) ∧
          (p ∈ l ∨ minPack = some p) ∧
          (∀ c, minCount = some c → subsetSizeOf idx p ≤ c)) := by
  intro l
  induction l with
  | nil =>
    intro minCount minPack hrel
    constructor
    · intro h
      exact ⟨h, by simp⟩
    · intro p hp
      rcases hrel with ⟨hmc, hmp⟩ | ⟨c, p2, hmc, hmp, hsz, hcpos⟩
      · rw [hmp] at hp
        cases hp
      · rw [hmp] at hp
        cases hp
        refine ⟨by omega, by simp, Or.inr hmp, ?_⟩
        intro c2 hc2
        rw [hmc] at hc2
        cases hc2
        omega
  | cons q rest ih =>
    intro minCount minPack hrel
    have hcount : (idx.packageVariants q.1).subsetSize q.2 = subsetSizeOf idx q := rfl
    by_cases hcond : chooseCond idx q minCount = true
    · obtain ⟨hqpos, hmcbound⟩ := (chooseCondIff idx q minCount).mp hcond
      have hstep : chooseLoop idx (q :: rest) minCount minPack =
          chooseLoop idx rest (some ((idx.packageVariants q.1).subsetSize q.2))
            (some q) := by
        rw [chooseLoopCons, if_pos hcond]
      have hrel2 : (some ((idx.packageVariants q.1).subsetSize q.2) = none ∧
            (some q : Option (String × PackageVariantsSubset)) = none) ∨
          (∃ c p, some ((idx.packageVariants q.1).subsetSize q.2) = some c ∧
            (some q : Option (String × PackageVariantsSubset)) = some p ∧
            subsetSizeOf idx p = c ∧ 0 < c) :=
        Or.inr ⟨subsetSizeOf idx q, q, by rw [hcount], rfl, rfl, hqpos⟩
      obtain ⟨ihNone, ihSome⟩ := ih (some ((idx.packageVariants q.1).subsetSize q.2))
        (some q) hrel2
      constructor
      · intro h
        rw [hstep] at h
        obtain ⟨habs, -⟩ := ihNone h
        cases habs
      · intro p hp
        rw [hstep] at hp
        obtain ⟨hppos, hminrest, hpm, hple⟩ := ihSome p hp
        refine ⟨hppos, ?_, ?_, ?_⟩
        · intro q2 hq2 hq2pos
          rcases List.mem_cons.mp hq2 with hq2 | hq2
          · subst hq2
            exact hple (subsetSizeOf idx q2) (by rw [hcount])
          · exact hminrest q2 hq2 hq2pos
        · rcases hpm with hpm | hpm
          · exact Or.inl (List.mem_cons_of_mem _ hpm)
          · cases hpm
            exact Or.inl (List.mem_cons_self _ _)
        · intro c hc
          have h1 := hple (subsetSizeOf idx q) (by rw [hcount])
          have h2 := hmcbound c hc
          omega
    · have hstep : chooseLoop idx (q :: rest) minCount minPack =
          chooseLoop idx rest minCount minPack := by
        rw [chooseLoopCons, if_neg hcond]
      have hnotsel : ¬ (0 < subsetSizeOf idx q ∧
          ∀ c, minCount = some c → subsetSizeOf idx q < c) := by
        intro hc
        exact hcond ((chooseCondIff idx q minCount).mpr hc)
      have hqzero : ∀ c, minCount = some c → 0 < subsetSizeOf idx q →
          c ≤ subsetSizeOf idx q := by
        intro c hc hq
        by_contra hlt
        exact hnotsel ⟨hq, fun c2 hc2 => by
          rw [hc] at hc2
          cases hc2
          omega⟩
      have hnonezero : minCount = none → subsetSizeOf idx q = 0 := by
        intro hc
        by_contra hq
        exact hnotsel ⟨by omega, fun c2 hc2 => by rw [hc] at hc2; cases hc2⟩
      obtain ⟨ihNone, ihSome⟩ := ih minCount minPack hrel
      constructor
      · intro h
        rw [hstep] at h
        obtain ⟨hmp, hall⟩ := ihNone h
        refine ⟨hmp, ?_⟩
        intro q2 hq2
        rcases List.mem_cons.mp hq2 with hq2 | hq2
        · subst hq2
          rcases hrel with ⟨hmc, -⟩ | ⟨c, p2, hmc, hmp2, -, -⟩
          · exact hnonezero hmc
          · rw [hmp2] at hmp
            cases hmp
        · exact hall q2 hq2
      · intro p hp
        rw [hstep] at hp
        obtain ⟨hppos, hminrest, hpm, hple⟩ := ihSome p hp
        refine ⟨hppos, ?_, ?_, hple⟩
        · intro q2 hq2 hq2pos
          rcases List.mem_cons.mp hq2 with hq2 | hq2
          · subst hq2
            rcases hrel with ⟨hmc, hmp⟩ | ⟨c, p2, hmc, hmp2, hsz, hcpos⟩
            · exact absurd (hnonezero hmc) (by omega)
            · have h1 := hqzero c hmc hq2pos
              have h2 := hple c hmc
              omega
          · exact hminrest q2 hq2 hq2pos
        · rcases hpm with hpm | hpm
          · exact Or.inl (List.mem_cons_of_mem _ hpm)
          · exact Or.inr hpm

theorem findOfExists {α : Type} (p : α → Bool) :
    ∀ l : List α, (∃ x ∈ l, p x = true) → ∃ y, l.find? p = some y := by
  intro l
  induction l with
  | nil => rintro ⟨x, hx, -⟩; cases hx
  | cons a rest ih =>
    rintro ⟨x, hx, hpx⟩
    by_cases hpa : p a = true
    · exact ⟨a, by rw [List.find?_cons_of_pos _ hpa]⟩
    · rcases List.mem_cons.mp hx with hx | hx
      · subst hx
        exact absurd hpx hpa
      · obtain ⟨y, hy⟩ := ih ⟨x, hx, hpx⟩
        exact ⟨y, by rw [List.find?_cons_of_neg _ (by simpa using hpa), hy]⟩

theorem subsetSizePosExists (idx : Index) (name : String)
    (range : PackageVariantsSubset)
    (hwf : subsetLenOkB idx (name, range) = true)
    (hpos : 0 < subsetSizeOf idx (name, range)) :
    ∃ i ∈ idx.variantsOrder (idx.packageVariants name),
      range.containsIndex i = true := by
  cases range with
  | Empty => simp [subsetSizeOf, PackageVariants.subsetSize] at hpos
  | Full =>
    refine ⟨0, ?_, rfl⟩
    rw [Index.variantsOrder, List.mem_insertionSort]
    exact List.mem_range.mpr (by
      simpa [subsetSizeOf, PackageVariants.subsetSize] using hpos)
  | Discrete b =>
    have hcnt : 0 < b.count true := by
      simpa [subsetSizeOf, PackageVariants.subsetSize] using hpos
    have hmem : true ∈ b := List.count_pos_iff.mp hcnt
    obtain ⟨i, hi, hbi⟩ := List.mem_iff_getElem.mp hmem
    have hlen : b.length = (idx.packageVariants name).variants.length := by
      simpa [subsetLenOkB] using hwf
    refine ⟨i, ?_, ?_⟩
    · rw [Index.variantsOrder, List.mem_insertionSort]
      exact List.mem_range.mpr (by omega)
    · simp only [PackageVariantsSubset.containsIndex]
      rw [List.getD_eq_getElem _ _ hi, hbi]

/-- C6: when every candidate subset is well-sized and at least one has
positive size, `choose_package_version` succeeds, picking a candidate of
minimum positive subset size and returning the first index of its package's
precomputed solver order that the subset contains. -/
theorem claim6_theorem (idx : Index) (pkgs : List (String × PackageVariantsSubset))
    (hwf : pkgs.all (subsetLenOkB idx) = true)
    (hpos : pkgs.any (fun q => decide (0 < subsetSizeOf idx q)) = true) :
    ∃ package range variantIdx,
      (package, range) ∈ pkgs ∧
      idx.choosePackageVersion pkgs = .ok (package, some variantIdx) ∧
      0 < subsetSizeOf idx (package, range) ∧
      (∀ q ∈ pkgs, 0 < subsetSizeOf idx q →
          subsetSizeOf idx (package, range) ≤ subsetSizeOf idx q) ∧
      (idx.variantsOrder (idx.packageVariants package)).find?
          (fun i => range.containsIndex i) = some variantIdx := by
  have hspec := chooseLoopSpec idx pkgs none none (Or.inl ⟨rfl, rfl⟩)
  cases hloop : chooseLoop idx pkgs none none with
  | none =>
    obtain ⟨-, hall⟩ := hspec.1 hloop
    obtain ⟨q, hq, hqpos⟩ := List.any_eq_true.mp hpos
    have := hall q hq
    have := of_decide_eq_true hqpos
    omega
  | some p =>
    obtain ⟨pn, pr⟩ := p
    obtain ⟨hppos, hmin, hmem, -⟩ := hspec.2 (pn, pr) hloop
    have hmem2 : (pn, pr) ∈ pkgs := by
      rcases hmem with h | h
      · exact h
      · cases h
    have hwfp : subsetLenOkB idx (pn, pr) = true :=
      List.all_eq_true.mp hwf (pn, pr) hmem2
    obtain ⟨i, hiord, hicont⟩ := subsetSizePosExists idx pn pr hwfp hppos
    obtain ⟨y, hy⟩ := findOfExists (fun j => pr.containsIndex j) _ ⟨i, hiord, hicont⟩
    refine ⟨pn, pr, y, hmem2, ?_, hppos, hmin, hy⟩
    unfold Index.choosePackageVersion
    rw [hloop]
    simp only [hy]

/-- A two-variant record for package `a`. -/
def c6RecA (v : Nat) : PackageRecord :=
  { name := "a", version := v, build := "0", buildNumber := 0,
    trackFeatures := [], timestamp := none, depends := [], constrains := [] }

/-- The single variant of package `b`. -/
def c6RecB : PackageRecord :=
  { name := "b", version := 1, build := "0", buildNumber := 0,
    trackFeatures := [], timestamp := none, depends := [], constrains := [] }

/-- An index with a two-variant package `a` and a one-variant package `b`. -/
def c6Index : Index :=
  ⟨fun name =>
    if name = "a" then [(1, c6RecA 1), (1, c6RecA 2)]
    else if name = "b" then [(1, c6RecB)]
    else []⟩

/-- Candidates offering all of `a` (size 2) and all of `b` (size 1). -/
def c6Pkgs : List (String × PackageVariantsSubset) :=
  [("a", .Full), ("b", .Full)]

/-- C6 witness: the claim's hypotheses and conclusion at the concrete
two-candidate index, via the theorem. -/
theorem claim6_theorem_witness :
    c6Pkgs.all (subsetLenOkB c6Index) = true ∧
    c6Pkgs.any (fun q => decide (0 < subsetSizeOf c6Index q)) = true ∧
    (∃ package range variantIdx,
      (package, range) ∈ c6Pkgs ∧
      c6Index.choosePackageVersion c6Pkgs = .ok (package, some variantIdx) ∧
      0 < subsetSizeOf c6Index (package, range) ∧
      (∀ q ∈ c6Pkgs, 0 < subsetSizeOf c6Index q →
          subsetSizeOf c6Index (package, range) ≤ subsetSizeOf c6Index q) ∧
      (c6Index.variantsOrder (c6Index.packageVariants package)).find?
          (fun i => range.containsIndex i) = some variantIdx) :=
  ⟨by decide, by decide, claim6_theorem c6Index c6Pkgs (by decide) (by decide)⟩

/-! ## Claim: when `get_dependencies` answers `Unknown` -/

/-- Whether an `Except` is a success. -/
def exceptIsOk {ε α : Type} : Except ε α → Bool
  | .ok _ => true
  | .error _ => false

/-- The subset a named spec selects from its package's variants (the value
both loops of `get_dependencies` compute for a spec). -/
def specSubset (idx : Index) (m : MatchSpec) : PackageVariantsSubset :=
  match m.name with
  | some n => (idx.packageVariants n).subsetFromMatchspec m
  | none => .Full

/-- All specs (constrains first, then depends, the processing order of
`get_dependencies`) that carry the name `n`. -/
def specsOn (record : PackageRecord) (n : String) : List MatchSpec :=
  (record.constrains ++ record.depends).filter (fun m => m.name = some n)

/-- The accumulated entry value after a list of specs: intersect each spec's
subset into the optional accumulator (insert on the first). -/
def foldRanges (idx : Index) (o : Option PackageVariantsSubset)
    (specs : List MatchSpec) : Option PackageVariantsSubset :=
  specs.foldl (fun acc m =>
    some (match acc with
      | some r => r.intersection (specSubset idx m)
      | none => specSubset idx m)) o

/-- The subset accumulated for a dependency name over the whole record:
the intersection of the subsets of every constrains and depends spec naming
it (`Full` when none does). -/
def accumSubset (idx : Index) (record : PackageRecord) (n : String) :
    PackageVariantsSubset :=
  match specsOn record n with
  | [] => .Full
  | m :: rest =>
    rest.foldl (fun acc s => acc.intersection (specSubset idx s)) (specSubset idx m)

/-- The range stored for a name in the partial constraint map. -/
def rangeAt (res : List (String × Requirement)) (n : String) :
    Option PackageVariantsSubset :=
  (lookupEntry res n).map Requirement.range

theorem foldRangesCons (idx : Index) (o : Option PackageVariantsSubset)
    (m : MatchSpec) (specs : List MatchSpec) :
    foldRanges idx o (m :: specs) =
      foldRanges idx
        (some (match o with
          | some r => r.intersection (specSubset idx m)
          | none => specSubset idx m)) specs := rfl

theorem foldRangesAppend (idx : Index) (o : Option PackageVariantsSubset)
    (l1 l2 : List MatchSpec) :
    foldRanges idx o (l1 ++ l2) = foldRanges idx (foldRanges idx o l1) l2 :=
  List.foldl_append _ _ _ _

theorem emptyIntersection (x : PackageVariantsSubset) :
    (PackageVariantsSubset.Empty).intersection x = .Empty := by
  cases x <;> rfl

theorem foldRangesConsSome (idx : Index) (r : PackageVariantsSubset)
    (m : MatchSpec) (specs : List MatchSpec) :
    foldRanges idx (some r) (m :: specs) =
      foldRanges idx (some (r.intersection (specSubset idx m))) specs := rfl

theorem foldRangesConsNone (idx : Index) (m : MatchSpec) (specs : List MatchSpec) :
    foldRanges idx none (m :: specs) =
      foldRanges idx (some (specSubset idx m)) specs := rfl

theorem foldRangesEmptySeed (idx : Index) :
    ∀ specs, foldRanges idx (some .Empty) specs = some .Empty := by
  intro specs
  induction specs with
  | nil => rfl
  | cons m rest ih =>
    rw [foldRangesConsSome, emptyIntersection]
    exact ih

theorem foldRangesSome (idx : Index) :
    ∀ (specs : List MatchSpec) (r : PackageVariantsSubset),
      foldRanges idx (some r) specs =
        some (specs.foldl (fun acc s => acc.intersection (specSubset idx s)) r) := by
  intro specs
  induction specs with
  | nil => intro r; rfl
  | cons m rest ih =>
    intro r
    rw [foldRangesCons]
    exact ih (r.intersection (specSubset idx m))

theorem rangeAtUpdate (key : String)
    (modify : Requirement → Requirement) (dflt : Requirement)
    (rng : PackageVariantsSubset)
    (hf : ∀ v, (modify v).range = v.range.intersection rng)
    (hd : dflt.range = rng) :
    ∀ (res : List (String × Requirement)) (n : String),
      rangeAt (updateEntry res key modify dflt) n =
        if n = key then
          some (match rangeAt res n with
            | some r => r.intersection rng
            | none => rng)
        else rangeAt res n := by
  intro res
  induction res with
  | nil =>
    intro n
    by_cases h : n = key
    · subst h
      simp [updateEntry, rangeAt, lookupEntry, hd]
    · simp [updateEntry, rangeAt, lookupEntry, h, Ne.symm h]
  | cons kv rest ih =>
    intro n
    obtain ⟨k, v⟩ := kv
    by_cases hk : k = key
    · subst hk
      by_cases hn : n = k
      · subst hn
        simp [updateEntry, rangeAt, lookupEntry, hf]
      · simp [updateEntry, rangeAt, lookupEntry, hn, Ne.symm hn]
    · have hstep : updateEntry ((k, v) :: rest) key modify dflt =
          (k, v) :: updateEntry rest key modify dflt := by
        simp [updateEntry, hk]
      by_cases hn : n = k
      · subst hn
        rw [hstep]
        simp [rangeAt, lookupEntry, hk]
      · rw [hstep]
        have hskip1 : rangeAt ((k, v) :: updateEntry rest key modify dflt) n =
            rangeAt (updateEntry rest key modify dflt) n := by
          simp [rangeAt, lookupEntry, Ne.symm hn]
        have hskip2 : rangeAt ((k, v) :: rest) n = rangeAt rest n := by
          simp [rangeAt, lookupEntry, Ne.symm hn]
        rw [hskip1, hskip2]
        exact ih n

theorem processConstrainsSpec (idx : Index) :
    ∀ (cs : List MatchSpec) (base : List (String × Requirement)),
      (∀ m ∈ cs, m.name.isSome = true) →
      ∃ res, processConstrains idx cs base = .ok res ∧
        ∀ n, rangeAt res n =
          foldRanges idx (rangeAt base n) (cs.filter (fun m => m.name = some n)) := by
  intro cs
  induction cs with
  | nil =>
    intro base hnames
    exact ⟨base, rfl, fun n => by simp [foldRanges]⟩
  | cons m rest ih =>
    intro base hnames
    obtain ⟨nm, hnm⟩ := Option.isSome_iff_exists.mp (hnames m (List.mem_cons_self m rest))
    have hstep : processConstrains idx (m :: rest) base =
        processConstrains idx rest
          (updateEntry base nm
            (constrainsModify ((idx.packageVariants nm).subsetFromMatchspec m))
            (.constrained ((idx.packageVariants nm).subsetFromMatchspec m))) := by
      simp only [processConstrains, hnm]
    obtain ⟨res, hres, hr⟩ := ih
      (updateEntry base nm
        (constrainsModify ((idx.packageVariants nm).subsetFromMatchspec m))
        (.constrained ((idx.packageVariants nm).subsetFromMatchspec m)))
      (fun m2 hm2 => hnames m2 (List.mem_cons_of_mem _ hm2))
    refine ⟨res, by rw [hstep]; exact hres, ?_⟩
    intro n
    rw [hr n]
    have hupdate := rangeAtUpdate nm
      (constrainsModify ((idx.packageVariants nm).subsetFromMatchspec m))
      (.constrained ((idx.packageVariants nm).subsetFromMatchspec m))
      ((idx.packageVariants nm).subsetFromMatchspec m)
      (fun v => by cases v <;> rfl) rfl base n
    by_cases hn : n = nm
    · subst hn
      have hfil : (m :: rest).filter (fun m2 => m2.name = some n) =
          m :: rest.filter (fun m2 => m2.name = some n) := by
        simp [List.filter_cons, hnm]
      have hss : specSubset idx m = (idx.packageVariants n).subsetFromMatchspec m := by
        simp [specSubset, hnm]
      rw [hupdate, if_pos rfl, hfil, foldRangesCons, hss]
    · have hfil : (m :: rest).filter (fun m2 => m2.name = some n) =
          rest.filter (fun m2 => m2.name = some n) := by
        simp [List.filter_cons, hnm, Ne.symm hn]
      rw [hupdate, if_neg hn, hfil]

theorem dependsStepRange (res : List (String × Requirement)) (nm : String)
    (rng : PackageVariantsSubset) :
    (dependsStep res nm rng).range =
      (match rangeAt res nm with
       | some r => r.intersection rng
       | none => rng) := by
  cases hl : lookupEntry res nm with
  | none => simp [dependsStep, rangeAt, hl, Requirement.range]
  | some spec => simp [dependsStep, rangeAt, hl, Requirement.range]

theorem processDependsConsNamed (idx : Index) (m : MatchSpec)
    (rest : List MatchSpec) (res : List (String × Requirement)) (nm : String)
    (hnm : m.name = some nm) :
    processDepends idx (m :: rest) res =
      if (idx.packageVariants nm).variants.isEmpty = true then .ok .unknown
      else
        if (dependsStep res nm
            ((idx.packageVariants nm).subsetFromMatchspec m)).range =
            PackageVariantsSubset.Empty then .ok .unknown
        else
          processDepends idx rest
            (updateEntry res nm
              (dependsModify ((idx.packageVariants nm).subsetFromMatchspec m))
              (.required ((idx.packageVariants nm).subsetFromMatchspec m))) := by
  simp only [processDepends, hnm, dependsStep, ite_self]

theorem processDependsSpec (idx : Index) :
    ∀ (ds : List MatchSpec) (res : List (String × Requirement)),
      (∀ m ∈ ds, m.name.isSome = true) →
      exceptIsOk (processDepends idx ds res) = true ∧
      (processDepends idx ds res = .ok .unknown ↔
        (∃ m ∈ ds, ∃ n, m.name = some n ∧ (idx.variantsOf n).isEmpty = true) ∨
        (∃ m ∈ ds, ∃ n, m.name = some n ∧
          foldRanges idx (rangeAt res n)
            (ds.filter (fun m2 => m2.name = some n)) = some .Empty)) := by
  intro ds
  induction ds with
  | nil =>
    intro res hnames
    refine ⟨rfl, ?_⟩
    simp [processDepends]
  | cons m rest ih =>
    intro res hnames
    obtain ⟨nm, hnm⟩ :=
      Option.isSome_iff_exists.mp (hnames m (List.mem_cons_self m rest))
    have hss : specSubset idx m = (idx.packageVariants nm).subsetFromMatchspec m := by
      simp [specSubset, hnm]
    rw [processDependsConsNamed idx m rest res nm hnm]
    by_cases hempty : (idx.packageVariants nm).variants.isEmpty = true
    · rw [if_pos hempty]
      refine ⟨rfl, ?_⟩
      constructor
      · intro h2
        exact Or.inl ⟨m, List.mem_cons_self m rest, nm, hnm, hempty⟩
      · intro h2
        rfl
    · rw [if_neg hempty]
      by_cases hstep : (dependsStep res nm
          ((idx.packageVariants nm).subsetFromMatchspec m)).range =
          PackageVariantsSubset.Empty
      · rw [if_pos hstep]
        refine ⟨rfl, ?_⟩
        constructor
        · intro h2
          refine Or.inr ⟨m, List.mem_cons_self m rest, nm, hnm, ?_⟩
          have hfil : (m :: rest).filter (fun m2 => m2.name = some nm) =
              m :: rest.filter (fun m2 => m2.name = some nm) := by
            simp [List.filter_cons, hnm]
          rw [hfil, foldRangesCons, hss, ← dependsStepRange res nm, hstep]
          exact foldRangesEmptySeed idx _
        · intro h2
          rfl
      · rw [if_neg hstep]
        obtain ⟨ihOk, ihIff⟩ := ih
          (updateEntry res nm
            (dependsModify ((idx.packageVariants nm).subsetFromMatchspec m))
            (.required ((idx.packageVariants nm).subsetFromMatchspec m)))
          (fun m2 hm2 => hnames m2 (List.mem_cons_of_mem _ hm2))
        have hFR : ∀ n,
            foldRanges idx (rangeAt res n)
              ((m :: rest).filter (fun m2 => m2.name = some n)) =
            foldRanges idx
              (rangeAt (updateEntry res nm
                (dependsModify ((idx.packageVariants nm).subsetFromMatchspec m))
                (.required ((idx.packageVariants nm).subsetFromMatchspec m))) n)
              (rest.filter (fun m2 => m2.name = some n)) := by
          intro n
          have hupdate := rangeAtUpdate nm
            (dependsModify ((idx.packageVariants nm).subsetFromMatchspec m))
            (.required ((idx.packageVariants nm).subsetFromMatchspec m))
            ((idx.packageVariants nm).subsetFromMatchspec m)
            (fun v => rfl) rfl res n
          by_cases hn : n = nm
          · subst hn
            have hfil : (m :: rest).filter (fun m2 => m2.name = some n) =
                m :: rest.filter (fun m2 => m2.name = some n) := by
              simp [List.filter_cons, hnm]
            rw [hfil, foldRangesCons, hss, hupdate, if_pos rfl]
          · have hfil : (m :: rest).filter (fun m2 => m2.name = some n) =
                rest.filter (fun m2 => m2.name = some n) := by
              simp [List.filter_cons, hnm, Ne.symm hn]
            rw [hfil, hupdate, if_neg hn]
        refine ⟨ihOk, ?_⟩
        rw [ihIff]
        constructor
        · rintro (⟨m2, hm2, n, hname, hemp⟩ | ⟨m2, hm2, n, hname, hcond⟩)
          · exact Or.inl ⟨m2, List.mem_cons_of_mem _ hm2, n, hname, hemp⟩
          · refine Or.inr ⟨m2, List.mem_cons_of_mem _ hm2, n, hname, ?_⟩
            rw [hFR n]
            exact hcond
        · rintro (⟨m2, hm2, n, hname, hemp⟩ | ⟨m2, hm2, n, hname, hcond⟩)
          · rcases List.mem_cons.mp hm2 with hm2 | hm2
            · subst hm2
              rw [hnm] at hname
              cases hname
              exact absurd hemp hempty
            · exact Or.inl ⟨m2, hm2, n, hname, hemp⟩
          · rcases List.mem_cons.mp hm2 with hm2 | hm2
            · have hname2 : m.name = some n := hm2 ▸ hname
              rw [hnm] at hname2
              have hn : n = nm := (Option.some.inj hname2).symm
              subst hn
              rw [hFR n] at hcond
              cases hfil2 : rest.filter (fun m2 => m2.name = some n) with
              | nil =>
                rw [hfil2] at hcond
                have hval : rangeAt (updateEntry res n
                    (dependsModify ((idx.packageVariants n).subsetFromMatchspec m))
                    (.required ((idx.packageVariants n).subsetFromMatchspec m))) n =
                    some (dependsStep res n
                      ((idx.packageVariants n).subsetFromMatchspec m)).range := by
                  have hupdate := rangeAtUpdate n
                    (dependsModify ((idx.packageVariants n).subsetFromMatchspec m))
                    (.required ((idx.packageVariants n).subsetFromMatchspec m))
                    ((idx.packageVariants n).subsetFromMatchspec m)
                    (fun v => rfl) rfl res n
                  rw [hupdate, if_pos rfl, dependsStepRange]
                rw [hval] at hcond
                have hsome : (some (dependsStep res n
                    ((idx.packageVariants n).subsetFromMatchspec m)).range :
                    Option PackageVariantsSubset) = some .Empty := hcond
                exact absurd (Option.some.inj hsome) hstep
              | cons m3 tl =>
                have hm3 : m3 ∈ rest.filter (fun m2 => m2.name = some n) := by
                  rw [hfil2]
                  exact List.mem_cons_self _ _
                have hm3r := List.mem_filter.mp hm3
                exact Or.inr ⟨m3, hm3r.1, n, of_decide_eq_true hm3r.2, hcond⟩
            · refine Or.inr ⟨m2, hm2, n, hname, ?_⟩
              rw [← hFR n]
              exact hcond

/-- C8: with parseable, named specs, `get_dependencies` never errors, and it
returns `Dependencies::Unknown` exactly when some depends spec names a
package with zero known variants (virtual or not), or the subset accumulated
for some depends name — constrains and depends specs on that name all
intersected — is `Empty`. -/
theorem claim8_theorem (idx : Index) (record : PackageRecord)
    (hc : record.constrains.all (fun m => m.name.isSome) = true)
    (hd : record.depends.all (fun m => m.name.isSome) = true) :
    exceptIsOk (idx.getDependencies record) = true ∧
    (idx.getDependencies record = .ok .unknown ↔
      (∃ m ∈ record.depends, ∃ n, m.name = some n ∧
          (idx.variantsOf n).isEmpty = true) ∨
      (∃ m ∈ record.depends, ∃ n, m.name = some n ∧
          accumSubset idx record n = .Empty)) := by
  obtain ⟨res0, hpc, hr0⟩ := processConstrainsSpec idx record.constrains []
    (fun m hm => List.all_eq_true.mp hc m hm)
  have hgd : idx.getDependencies record = processDepends idx record.depends res0 := by
    unfold Index.getDependencies
    rw [hpc]
  obtain ⟨hok, hiff⟩ := processDependsSpec idx record.depends res0
    (fun m hm => List.all_eq_true.mp hd m hm)
  rw [hgd]
  have hcondEq : ∀ m n, m ∈ record.depends → m.name = some n →
      (foldRanges idx (rangeAt res0 n)
          (record.depends.filter (fun m2 => m2.name = some n)) = some .Empty ↔
        accumSubset idx record n = .Empty) := by
    intro m n hm hn
    have hres0 : rangeAt res0 n =
        foldRanges idx none
          (record.constrains.filter (fun m2 => m2.name = some n)) := by
      rw [hr0 n]
      rfl
    rw [hres0, ← foldRangesAppend, ← List.filter_append]
    have hmem : m ∈ specsOn record n :=
      List.mem_filter.mpr ⟨List.mem_append.mpr (Or.inr hm), by simp [hn]⟩
    have hsn : (record.constrains ++ record.depends).filter
        (fun m2 => m2.name = some n) = specsOn record n := rfl
    rw [hsn]
    cases hs : specsOn record n with
    | nil =>
      rw [hs] at hmem
      cases hmem
    | cons m0 tl =>
      rw [foldRangesConsNone, foldRangesSome]
      unfold accumSubset
      simp only [hs, Option.some_inj]
  refine ⟨hok, hiff.trans (or_congr Iff.rfl ?_)⟩
  constructor
  · rintro ⟨m, hm, n, hn, hcond⟩
    exact ⟨m, hm, n, hn, (hcondEq m n hm hn).mp hcond⟩
  · rintro ⟨m, hm, n, hn, hcond⟩
    exact ⟨m, hm, n, hn, (hcondEq m n hm hn).mpr hcond⟩

/-- A record for the `get_dependencies` witness: one resolvable dependency
and one dependency on a package with no variants. -/
def c8Record : PackageRecord :=
  { name := "root", version := 0, build := "0", buildNumber := 0,
    trackFeatures := [], timestamp := none,
    depends := [msOnlyName "dep", msOnlyName "ghost"], constrains := [] }

/-- The one variant of the resolvable dependency. -/
def c8Dep : PackageRecord :=
  { name := "dep", version := 1, build := "0", buildNumber := 0,
    trackFeatures := [], timestamp := none, depends := [], constrains := [] }

/-- An index knowing `dep` but not `ghost`. -/
def c8Index : Index :=
  ⟨fun name => if name = "dep" then [(1, c8Dep)] else []⟩

/-- C8 witness: the theorem's hypotheses and both conclusions at the concrete
record whose second dependency names a variant-less package. -/
theorem claim8_theorem_witness :
    c8Record.constrains.all (fun m => m.name.isSome) = true ∧
    c8Record.depends.all (fun m => m.name.isSome) = true ∧
    exceptIsOk (c8Index.getDependencies c8Record) = true ∧
    (c8Index.getDependencies c8Record = .ok .unknown ↔
      (∃ m ∈ c8Record.depends, ∃ n, m.name = some n ∧
          (c8Index.variantsOf n).isEmpty = true) ∨
      (∃ m ∈ c8Record.depends, ∃ n, m.name = some n ∧
          accumSubset c8Index c8Record n = .Empty)) :=
  ⟨by decide, by decide,
    (claim8_theorem c8Index c8Record (by decide) (by decide)).1,
    (claim8_theorem c8Index c8Record (by decide) (by decide)).2⟩

end Rattler
